import Mathlib

/-!
uconf: a haproxy-style configuration reader (`conf.go`)

A shallow embedding of `Property` (one parsed line) and `ConfigFile` (the
sections and their key tables), followed by the properties proved about them.

Modelling conventions
* a Go `string` is a `List Char` (valid UTF-8 text, one `Char` per rune);
* a Go `map[string]V` is an association list with at most one entry per key,
  read with `GoMap.get` and written with `GoMap.set`; two maps are the same Go
  map when `get` agrees on every key (iteration order is not observable);
* a Go slice is a `List`; an index outside the slice is a run-time panic,
  modelled by `none`;
* a `Property` is a record with an allocated map, as `newProperty` makes it;
* a Go map value is a reference.  Key tables are shared between
  `ConfigFile.data` and `ConfigFile.CurrentKeys`, so they live in an explicit
  `heap` and both fields hold indices into it.
-/

namespace Uconf

/-- A Go string, as its sequence of runes. -/
abbrev GoString := List Char

/-! ## Go maps -/

/-- A Go `map[string]V`. -/
abbrev GoMap (V : Type) := List (GoString × V)

/-- The read `m[k]` with the comma-ok flag: `none` when `k` is absent. -/
def GoMap.get {V : Type} : GoMap V → GoString → Option V
  | [], _ => none
  | (k', v) :: rest, k => if k' = k then some v else GoMap.get rest k

/-- The write `m[k] = v`: overwrites the entry of `k` or adds one. -/
def GoMap.set {V : Type} : GoMap V → GoString → V → GoMap V
  | [], k, v => [(k, v)]
  | (k', v') :: rest, k, v =>
    if k' = k then (k, v) :: rest else (k', v') :: GoMap.set rest k v

/-- The read `m[k]` of a map of slices: the nil slice when `k` is absent. -/
def GoMap.getSlice {V : Type} (m : GoMap (List V)) (k : GoString) : List V :=
  (GoMap.get m k).getD []

/-! ## The standard library pieces `Load` uses -/

/-- Go `unicode.IsSpace`: in Latin-1 the characters tab, newline, vertical tab,
form feed, carriage return, space, U+0085 and U+00A0; beyond it the characters
of category Z and property Pattern_White_Space. -/
def isSpace (c : Char) : Bool :=
  let n := c.toNat
  (9 ≤ n && n ≤ 13) || n == 32 || n == 0x85 || n == 0xA0 || n == 0x1680 ||
  (0x2000 ≤ n && n ≤ 0x200A) || n == 0x2028 || n == 0x2029 || n == 0x202F ||
  n == 0x205F || n == 0x3000

/-- The scan of `strings.Fields`: `cur` is the field being read (empty between
fields); a white-space character closes it. -/
def fieldsAux : List Char → GoString → List GoString
  | [], cur => if cur = [] then [] else [cur]
  | c :: rest, cur =>
    if isSpace c then
      (if cur = [] then fieldsAux rest [] else cur :: fieldsAux rest [])
    else fieldsAux rest (cur ++ [c])

/-- Go `strings.Fields`: the maximal runs of non-white-space characters. -/
def Fields (s : GoString) : List GoString := fieldsAux s []

/-- The class `[^;#]` of the pattern. -/
def isContentChar (c : Char) : Bool := c != ';' && c != '#'

/-- The class `[;|#]` of the pattern: it holds three characters, the bar
included. -/
def isDelimChar (c : Char) : Bool := c == ';' || c == '|' || c == '#'

/-- The `.` of the pattern (no `s` flag): any character but newline. -/
def isDotChar (c : Char) : Bool := c != '\n'

/-- Match `[;|#](?P<comment>.*)$` at the head of the text: one delimiter, then
everything up to the end of the text, which must hold no newline. -/
def matchTail : List Char → Option GoString
  | [] => none
  | c :: rest => if isDelimChar c && rest.all isDotChar then some rest else none

/-- Match `(?P<content>[^;#]*)[;|#](?P<comment>.*)$` at the head of the text.
The star is greedy: a longer content is tried before a shorter one. -/
def matchHere : List Char → Option (GoString × GoString)
  | [] => none
  | c :: rest =>
    match (if isContentChar c then matchHere rest else none) with
    | some (ct, cm) => some (c :: ct, cm)
    | none => (matchTail (c :: rest)).map (fun cm => ([], cm))

/-- The result of `reg.FindStringSubmatch(str)` for the pattern of `Load`:
the groups `content` and `comment` of the leftmost match, `none` for no match. -/
def FindStringSubmatch : List Char → Option (GoString × GoString)
  | [] => none
  | c :: rest =>
    match matchHere (c :: rest) with
    | some r => some r
    | none => FindStringSubmatch rest

/-! ## Property -/

/-- Default section name. -/
def DEFAULT_SECTION : GoString := "DEFAULT".toList

/-- One parsed line. -/
structure Property where
  name : GoString
  avals : List GoString
  kwvals : GoMap GoString
  keycomment : GoString
deriving DecidableEq, Repr

instance : Inhabited Property := ⟨{ name := [], avals := [], kwvals := [], keycomment := [] }⟩

/-- Go `newProperty`. -/
def newProperty (name : GoString) : Property :=
  { name := name, avals := [], kwvals := [], keycomment := [] }

/-- Go `Property.AppendList`. -/
def Property.AppendList (p : Property) (value : List GoString) : Property :=
  { p with avals := p.avals ++ value }

/-- Go `Property.SetValue`. -/
def Property.SetValue (p : Property) (key value : GoString) : Property :=
  { p with kwvals := GoMap.set p.kwvals key value }

/-- Go `Property.GetAllSliceValue`. -/
def Property.GetAllSliceValue (p : Property) : List GoString := p.avals

/-- Go `Property.GetAllMapValue`. -/
def Property.GetAllMapValue (p : Property) : GoMap GoString := p.kwvals

/-- Go `Property.GetValue`: the empty string for an absent key. -/
def Property.GetValue (p : Property) (key : GoString) : GoString :=
  (GoMap.get p.GetAllMapValue key).getD []

/-- Go `Property.GetValueIndex`: `none` is the index panic. -/
def Property.GetValueIndex (p : Property) (index : Nat) : Option GoString :=
  p.GetAllSliceValue[index]?

/-- The body `p.kwvals[values[i-1]] = values[i]` of the loop of `Load`;
`none` when an index is outside `values`. -/
def kwBody (values : List GoString) (i : Nat) (m : GoMap GoString) :
    Option (GoMap GoString) :=
  match values[i - 1]?, values[i]? with
  | some k, some v => some (GoMap.set m k v)
  | _, _ => none

/-- The loop `for i := length - 2; i > 0; i -= 2` from the value `i` on.  At
`i = 1` the body runs and the next `i` is `-1`, which ends the loop as `0`
does. -/
def kwLoop (values : List GoString) : Nat → GoMap GoString → Option (GoMap GoString)
  | 0, m => some m
  | 1, m => kwBody values 1 m
  | i + 2, m => (kwBody values (i + 2) m).bind (kwLoop values i)

/-- Go `Property.Load` on the receiver `p`: `none` is a run-time panic,
otherwise the returned flag and the receiver after the call.  `length` is at
least 1 where `length - 2` is taken; for `length = 1` the Go value `-1` and the
natural number `0` both fail the guard `i > 0`.  The receiver is a record made
by `newProperty`, whose map is allocated, as in `LoadString`; the zero value of
the Go type, whose map is nil and cannot be written, is not a value of
`Property`. -/
def Property.Load (p : Property) (str : GoString) : Option (Bool × Property) :=
  let cp : GoString × Property :=
    match FindStringSubmatch str with
    | none => (str, p)
    | some (ct, cm) => (ct, { p with keycomment := cm })
  let content := cp.1
  let p1 := cp.2
  let length := (Fields content).length
  if length = 0 then some (false, p1)
  else
    match (Fields content)[0]? with
    | none => none
    | some nm =>
      let values := (Fields content).drop 1
      let p2 := Property.AppendList { p1 with name := nm } values
      match kwLoop values (length - 2) p2.kwvals with
      | none => none
      | some kw => some (true, { p2 with kwvals := kw })

/-- The loop of `Load` as `kwLoop`, with the values of `i` for which the body
has run added to `tr`, in the order of the runs. -/
def kwLoopTraced (values : List GoString) :
    Nat → GoMap GoString → List Nat → Option (GoMap GoString × List Nat)
  | 0, m, tr => some (m, tr)
  | 1, m, tr => (kwBody values 1 m).map (fun m1 => (m1, tr ++ [1]))
  | i + 2, m, tr =>
    (kwBody values (i + 2) m).bind (fun m1 => kwLoopTraced values i m1 (tr ++ [i + 2]))

/-- Go `Property.Load` as `Property.Load`, returning in addition the values of
`i` for which the body of the loop has run. -/
def Property.LoadTraced (p : Property) (str : GoString) :
    Option (Bool × Property × List Nat) :=
  let cp : GoString × Property :=
    match FindStringSubmatch str with
    | none => (str, p)
    | some (ct, cm) => (ct, { p with keycomment := cm })
  let content := cp.1
  let p1 := cp.2
  let length := (Fields content).length
  if length = 0 then some (false, p1, [])
  else
    match (Fields content)[0]? with
    | none => none
    | some nm =>
      let values := (Fields content).drop 1
      let p2 := Property.AppendList { p1 with name := nm } values
      match kwLoopTraced values (length - 2) p2.kwvals [] with
      | none => none
      | some (kw, tr) => some (true, { p2 with kwvals := kw }, tr)

/-! ## ConfigFile -/

/-- The map of one section instance: key name to the records of that name. -/
abbrev KeyTable := GoMap (List Property)

/-- Go `ConfigFile`.  `heap` holds the key tables that `make` has allocated;
`data` and `CurrentKeys` refer to them by position (`CurrentKeys = none` is the
nil map).  The lock has no sequential content and is left out. -/
structure ConfigFile where
  fileNames : List GoString
  data : GoMap (List Nat)
  sectionData : GoMap (List Property)
  sectionList : List GoString
  CurrentKeys : Option Nat
  CurrentSection : Option Property
  heap : List KeyTable
deriving DecidableEq, Repr

/-- The errors the queries return. -/
inductive QueryError where
  | sectionNotFound
  | keyNotFound
  | indexOutOfRange
deriving DecidableEq, Repr

/-- Go `NewConfigFile`. -/
def NewConfigFile : ConfigFile :=
  { fileNames := [], data := [], sectionData := [], sectionList := [],
    CurrentKeys := none, CurrentSection := none, heap := [] }

/-- The table a reference points to (every reference a store holds points to
an allocated table). -/
def ConfigFile.deref (c : ConfigFile) (r : Nat) : KeyTable := c.heap.getD r []

/-- Go `ConfigFile.SetSectionName`. -/
def ConfigFile.SetSectionName (c : ConfigFile) (sections : List GoString) : ConfigFile :=
  { c with sectionList := c.sectionList ++ sections }

/-- Go `ConfigFile.GetALLSection`. -/
def ConfigFile.GetALLSection (c : ConfigFile) : GoMap (List Property) := c.sectionData

/-- Go `ConfigFile.GetSection`.  Every slice stored in `sectionData` comes from
`make` and `append`, so the read is nil exactly when the name is absent. -/
def ConfigFile.GetSection (c : ConfigFile) (name : GoString) :
    Except QueryError (List Property) :=
  match GoMap.get c.sectionData name with
  | none => .error .sectionNotFound
  | some s => .ok s

/-- Go `ConfigFile.GetSectionIndex`: `none` is the panic of `s[index]`. -/
def ConfigFile.GetSectionIndex (c : ConfigFile) (name : GoString) (index : Int) :
    Option (Except QueryError Property) :=
  match c.GetSection name with
  | .error e => some (.error e)
  | .ok s =>
    if (s.length : Int) < index then some (.error .indexOutOfRange)
    else if index < 0 then none
    else (s[index.toNat]?).map .ok

/-- Go `ConfigFile.AddSectionValue`: the fresh key table `key` is allocated at
the end of the heap. -/
def ConfigFile.AddSectionValue (c : ConfigFile) (section_name : GoString) (prop : Property) :
    ConfigFile :=
  let c1 : ConfigFile :=
    match GoMap.get c.sectionData section_name with
    | some _ => c
    | none => { c with sectionData := GoMap.set c.sectionData section_name [],
                       data := GoMap.set c.data section_name [] }
  let key := c1.heap.length
  { c1 with
    heap := c1.heap ++ [[]]
    sectionData :=
      GoMap.set c1.sectionData section_name (GoMap.getSlice c1.sectionData section_name ++ [prop])
    data := GoMap.set c1.data section_name (GoMap.getSlice c1.data section_name ++ [key])
    CurrentSection := some prop
    CurrentKeys := some key }

/-- The two statements of `SetKey` that write the table `keys`. -/
def addKey (keys : KeyTable) (prop : Property) : KeyTable :=
  let keys1 : KeyTable :=
    match GoMap.get keys prop.name with
    | some _ => keys
    | none => GoMap.set keys prop.name []
  GoMap.set keys1 prop.name (GoMap.getSlice keys1 prop.name ++ [prop])

/-- Go `ConfigFile.SetKey`.  After the first statement `CurrentKeys` is not
nil. -/
def ConfigFile.SetKey (c : ConfigFile) (prop : Property) : ConfigFile :=
  let c1 : ConfigFile :=
    if c.CurrentKeys = none then
      (c.SetSectionName [DEFAULT_SECTION]).AddSectionValue DEFAULT_SECTION
        (newProperty DEFAULT_SECTION)
    else c
  match c1.CurrentKeys with
  | none => c1
  | some keys => { c1 with heap := c1.heap.set keys (addKey (c1.deref keys) prop) }

/-- Go `ConfigFile.GetALLKeys`: the tables are returned by their content. -/
def ConfigFile.GetALLKeys (c : ConfigFile) (section_name : GoString) :
    Except QueryError (List KeyTable) :=
  match GoMap.get c.data section_name with
  | none => .error .keyNotFound
  | some keys => .ok (keys.map c.deref)

/-- Go `ConfigFile.GetKeysIndex`: `none` is the panic of `keys[index]`. -/
def ConfigFile.GetKeysIndex (c : ConfigFile) (section_name : GoString) (index : Int) :
    Option (Except QueryError KeyTable) :=
  match c.GetALLKeys section_name with
  | .error e => some (.error e)
  | .ok keys =>
    if (keys.length : Int) < index then some (.error .indexOutOfRange)
    else if index < 0 then none
    else (keys[index.toNat]?).map .ok

/-- Go `contains`. -/
def contains : List GoString → GoString → Bool
  | [], _ => false
  | a :: s, e => if a = e then true else contains s e

/-- Go `ConfigFile.LoadString`: `none` is a panic inside `Load`. -/
def ConfigFile.LoadString (c : ConfigFile) (line : GoString) : Option ConfigFile :=
  match (newProperty []).Load line with
  | none => none
  | some (false, _) => some c
  | some (true, p) =>
    let section_name := p.name
    if contains c.sectionList section_name then some (c.AddSectionValue section_name p)
    else some (c.SetKey p)

/-- The lines `lines` fed to `LoadString` one after the other. -/
def ConfigFile.LoadStrings : ConfigFile → List GoString → Option ConfigFile
  | c, [] => some c
  | c, line :: rest => (c.LoadString line).bind (fun c1 => ConfigFile.LoadStrings c1 rest)


/-- The error `os.Open` returns for a path. -/
inductive FileError where
  | openFailed (path : GoString)
deriving DecidableEq, Repr

/-- A file that opens: the lines the scanner yields, and whether the scanner
then stops on a read error (`scanner.Err() != nil`) instead of the end of the
file. -/
structure FileContent where
  lines : List GoString
  readError : Bool
deriving DecidableEq, Repr

/-- The files as `LoadFile` sees them: `none` for a path that cannot be
opened. -/
abbrev FileSystem := GoString → Option FileContent

/-- How a call of `LoadFile` or `Reload` ends: it returns an error value (nil
is `none`) and leaves the store `c`, or `log.Fatal` ends the process. -/
inductive LoadResult where
  | returned (err : Option FileError) (c : ConfigFile)
  | fatal
deriving Repr

/-- The error and the store of a call that returns. -/
def LoadResult.returned? : LoadResult → Option (Option FileError × ConfigFile)
  | .returned err c => some (err, c)
  | .fatal => none

/-- The loop `for _, fileName := range c.fileNames` of `LoadFile`, over the
file names that are left.  The outer `none` is a panic inside `LoadString`. -/
def ConfigFile.loadFiles (fs : FileSystem) :
    ConfigFile → List GoString → Option LoadResult
  | c, [] => some (.returned none c)
  | c, fileName :: rest =>
    match fs fileName with
    | none => some (.returned (some (.openFailed fileName)) c)
    | some file =>
      (c.LoadStrings file.lines).bind
        (fun c1 => if file.readError then some .fatal else ConfigFile.loadFiles fs c1 rest)

/-- Go `ConfigFile.LoadFile`: the arguments are appended to `c.fileNames` and
the loop ranges over `c.fileNames`. -/
def ConfigFile.LoadFile (fs : FileSystem) (c : ConfigFile) (fileName : List GoString) :
    Option LoadResult :=
  let c1 : ConfigFile := { c with fileNames := c.fileNames ++ fileName }
  c1.loadFiles fs c1.fileNames

/-- Go `ConfigFile.Reload`: the store is replaced only when the load into the
new store returns no error. -/
def ConfigFile.Reload (fs : FileSystem) (c : ConfigFile) : Option LoadResult :=
  match NewConfigFile.LoadFile fs c.fileNames with
  | none => none
  | some .fatal => some .fatal
  | some (.returned none cfg) => some (.returned none cfg)
  | some (.returned (some err) _) => some (.returned (some err) c)

/-! ## Notions the properties are stated with -/

/-- The characters that start a comment according to the documentation of
`Load`. -/
def isCommentStart (c : Char) : Bool := c == ';' || c == '#'

/-- The text before the first `;` or `#` of the line (the whole line when
there is none). -/
def beforeComment (str : GoString) : GoString :=
  str.takeWhile (fun c => !isCommentStart c)

/-- The text after the first `;` or `#` of the line (empty when there is
none). -/
def afterComment (str : GoString) : GoString :=
  (str.dropWhile (fun c => !isCommentStart c)).drop 1

/-- A line: a string without a newline character. -/
def isLine (str : GoString) : Prop := '\n' ∉ str

instance (str : GoString) : Decidable (isLine str) := by
  unfold isLine
  infer_instance

/-- The indices `n - 1, n - 3, ...` that are greater than `0`, largest
first. -/
def pairIndices (n : Nat) : List Nat := (List.range (n / 2)).map (fun j => n - 1 - 2 * j)

/-- The assignment `m[values[i-1]] = values[i]`, for indices inside `values`. -/
def pairStep (values : List GoString) (m : GoMap GoString) (i : Nat) : GoMap GoString :=
  match values[i - 1]?, values[i]? with
  | some k, some v => GoMap.set m k v
  | _, _ => m

/-- The map obtained from the empty one by `m[values[i-1]] = values[i]` for
`i = len(values) - 1, len(values) - 3, ...` while `i > 0`. -/
def pairFromRight (values : List GoString) : GoMap GoString :=
  (pairIndices values.length).foldl (pairStep values) []

/-- The record `LoadString` builds from a line: `none` when `Load` answers
false. -/
def parseLine (line : GoString) : Option Property :=
  match (newProperty []).Load line with
  | some (true, p) => some p
  | _ => none

/-- The content `Load` splits into fields. -/
def contentOf (str : GoString) : GoString :=
  match FindStringSubmatch str with
  | none => str
  | some (ct, _) => ct

/-- The comment of the receiver after `Load`. -/
def commentOf (p : Property) (str : GoString) : GoString :=
  match FindStringSubmatch str with
  | none => p.keycomment
  | some (_, cm) => cm

/-- The last statement of `LoadString`: the record opens a section when its
name is recognized and is filed as a key otherwise. -/
def ConfigFile.place (c : ConfigFile) (p : Property) : ConfigFile :=
  if contains c.sectionList p.name then c.AddSectionValue p.name p else c.SetKey p

/-- The records of `recs` named `k`, in their order. -/
def named (k : GoString) (recs : List Property) : List Property :=
  recs.filter (fun p => decide (p.name = k))

/-- The entry a key table has for a key whose records are `rs`: none at all
when there is no record. -/
def entryOf (rs : List Property) : Option (List Property) :=
  if rs = [] then none else some rs

/-- The representation invariant of a store: a section with key tables has
header records, and every reference points into the heap. -/
def ConfigFile.WF (c : ConfigFile) : Prop :=
  (∀ s, (GoMap.get c.data s).isSome = true → (GoMap.get c.sectionData s).isSome = true) ∧
  (∀ s refs, GoMap.get c.data s = some refs → ∀ r ∈ refs, r < c.heap.length)

/-- Whether the record parsed from the line is named `n`. -/
def headedBy (n : GoString) (line : GoString) : Bool :=
  match parseLine line with
  | some p => decide (p.name = n)
  | none => false

/-- The store right after the first key record `p` has been filed in a fresh
store whose recognized names are `names`: one default section instance, whose
key table is `t`. -/
def defaultOnly (names : List GoString) (t : KeyTable) : ConfigFile :=
  { fileNames := [],
    data := [(DEFAULT_SECTION, [0])],
    sectionData := [(DEFAULT_SECTION, [newProperty DEFAULT_SECTION])],
    sectionList := names ++ [DEFAULT_SECTION],
    CurrentKeys := some 0,
    CurrentSection := some (newProperty DEFAULT_SECTION),
    heap := [t] }

/-- The calls of `AddSectionValue` that `LoadString` makes on a line, each as
its section name and header record: one for a header line, one (the default
one) for a key line when no section is open, none otherwise. -/
def opensOf (c : ConfigFile) (line : GoString) : List (GoString × Property) :=
  match parseLine line with
  | none => []
  | some p =>
    if contains c.sectionList p.name then [(p.name, p)]
    else if c.CurrentKeys = none then [(DEFAULT_SECTION, newProperty DEFAULT_SECTION)]
    else []

/-- The stores that `SetSectionName` and `LoadString` build from an empty one,
each with the section instances opened on the way, in order. -/
inductive Reach : ConfigFile → List (GoString × Property) → Prop where
  | new : Reach NewConfigFile []
  | setNames (c : ConfigFile) (o : List (GoString × Property)) (l : List GoString) :
      Reach c o → Reach (c.SetSectionName l) o
  | load (c : ConfigFile) (o : List (GoString × Property)) (line : GoString)
      (c1 : ConfigFile) :
      Reach c o → c.LoadString line = some c1 → Reach c1 (o ++ opensOf c line)

/-- The header records of the instances of section `n` among the opened
ones, in order. -/
def headersOf (n : GoString) (o : List (GoString × Property)) : List Property :=
  (o.filter (fun e => decide (e.1 = n))).map (fun e => e.2)

/-- The values of `i` for which the body of the loop of `Load` runs, from
the value `i` on (same recursion as `kwLoop`). -/
def kwLoopTrace : Nat → List Nat
  | 0 => []
  | 1 => [1]
  | i + 2 => (i + 2) :: kwLoopTrace i

/-- The number of records a map of record sequences holds. -/
def totalRecords (m : GoMap (List Property)) : Nat :=
  (m.map (fun e => e.2.length)).sum

/-- The number of records a store holds: header records and key records. -/
def ConfigFile.recordCount (c : ConfigFile) : Nat :=
  totalRecords c.sectionData + (c.heap.map totalRecords).sum

/-- What the two maps of the store hold for the section name `n` when the
opened instances are `o`. -/
def sectionInv (c : ConfigFile) (o : List (GoString × Property)) (n : GoString) : Prop :=
  GoMap.get c.sectionData n = entryOf (headersOf n o) ∧
  ∃ refs, GoMap.get c.data n = (if headersOf n o = [] then none else some refs) ∧
    refs.length = (headersOf n o).length

/-- The path opens and is read to the end of the file. -/
def readsToEnd (fs : FileSystem) (f : GoString) : Bool :=
  match fs f with
  | some file => !file.readError
  | none => false

/-- The lines of a file (none for a path that does not open). -/
def fileLines (fs : FileSystem) (f : GoString) : List GoString :=
  match fs f with
  | some file => file.lines
  | none => []

/-- The lines of the given files, one file after the other. -/
def linesOf (fs : FileSystem) : List GoString → List GoString
  | [] => []
  | f :: rest => fileLines fs f ++ linesOf fs rest

/-- The store `c` with the file names `names` recorded. -/
def ConfigFile.withFileNames (c : ConfigFile) (names : List GoString) : ConfigFile :=
  { c with fileNames := names }

/-- Every record of the key table is filed under its own name, which is not
empty. -/
def tableNamed (t : KeyTable) : Prop :=
  ∀ k recs, GoMap.get t k = some recs → ∀ p ∈ recs, p.name = k ∧ p.name ≠ []

/-- Every header record has a name, and every allocated key table files its
records under their names. -/
def nameInv (c : ConfigFile) : Prop :=
  (∀ n recs, GoMap.get c.sectionData n = some recs → ∀ p ∈ recs, p.name ≠ []) ∧
  ∀ t ∈ c.heap, tableNamed t

/-- The store `c1` extends the store `c`: every sequence of header records,
every sequence of key-table references and every sequence of key records of
an allocated table is a prefix of what it is in `c1`. -/
def appendOnly (c c1 : ConfigFile) : Prop :=
  (∀ s, GoMap.getSlice c.sectionData s <+: GoMap.getSlice c1.sectionData s) ∧
  (∀ s, GoMap.getSlice c.data s <+: GoMap.getSlice c1.data s) ∧
  (∀ r, r < c.heap.length → ∀ k,
    GoMap.getSlice (c.deref r) k <+: GoMap.getSlice (c1.deref r) k)

/-- A section instance as the lines opened and filled it: its section name,
its header record, and the key records routed to it, in order. -/
structure Instance where
  name : GoString
  header : Property
  keys : List Property

/-- The key record `p` routed to the most recently opened instance. -/
def addKeyToLast : List Instance → Property → List Instance
  | [], _ => []
  | [inst], p => [{ inst with keys := inst.keys ++ [p] }]
  | inst :: next :: rest, p => inst :: addKeyToLast (next :: rest) p

/-- The instances after `LoadString` of a line on the store `c`, when they
were `log` before: a header line opens an instance, a key line goes to the
most recently opened one, and when no section is open (`CurrentKeys` is nil)
it opens the default section and goes there. -/
def logAfter (c : ConfigFile) (log : List Instance) (line : GoString) : List Instance :=
  match parseLine line with
  | none => log
  | some p =>
    if contains c.sectionList p.name then log ++ [{ name := p.name, header := p, keys := [] }]
    else if c.CurrentKeys = none then
      log ++ [{ name := DEFAULT_SECTION, header := newProperty DEFAULT_SECTION, keys := [p] }]
    else addKeyToLast log p

/-- The stores that `SetSectionName` and `LoadString` build from an empty one,
each with the section instances opened and filled on the way, in the order
they were opened. -/
inductive Built : ConfigFile → List Instance → Prop where
  | new : Built NewConfigFile []
  | setNames (c : ConfigFile) (log : List Instance) (l : List GoString) :
      Built c log → Built (c.SetSectionName l) log
  | load (c : ConfigFile) (log : List Instance) (line : GoString) (c1 : ConfigFile) :
      Built c log → c.LoadString line = some c1 → Built c1 (logAfter c log line)

/-- The instances of section `n`, in the order they were opened. -/
def instancesOf (n : GoString) (log : List Instance) : List Instance :=
  log.filter (fun inst => decide (inst.name = n))

/-- The key table holds exactly the key records `keys`: each under its name,
in order, and no other key. -/
def holdsKeys (t : KeyTable) (keys : List Property) : Prop :=
  ∀ k, GoMap.get t k = entryOf (named k keys)

/-- The section name and header record of an instance. -/
def pairOf (inst : Instance) : GoString × Property := (inst.name, inst.header)

/-- The positions, counted from `s`, of the instances named `n`. -/
def refsFrom (s : Nat) (n : GoString) : List Instance → List Nat
  | [] => []
  | inst :: rest =>
    if inst.name = n then s :: refsFrom (s + 1) n rest else refsFrom (s + 1) n rest

/-- How the heap, `CurrentKeys` and `data` of a store reflect the instances:
the i-th opened instance has the i-th table, which holds its key records. -/
def tableInv (c : ConfigFile) (log : List Instance) : Prop :=
  c.heap.length = log.length ∧
  c.CurrentKeys = (if log.length = 0 then none else some (log.length - 1)) ∧
  (∀ i inst, log[i]? = some inst → holdsKeys (c.deref i) inst.keys) ∧
  (∀ n, GoMap.get c.data n
    = (if refsFrom 0 n log = [] then none else some (refsFrom 0 n log)))

/-! ## Lemmas: maps -/

theorem GoMap.get_set {V : Type} (m : GoMap V) (k k' : GoString) (v : V) :
    GoMap.get (GoMap.set m k v) k' = if k = k' then some v else GoMap.get m k' := by
  induction m with
  | nil => simp [GoMap.set, GoMap.get]
  | cons hd tl ih =>
    obtain ⟨a, b⟩ := hd
    by_cases h : a = k
    · subst h
      by_cases h3 : a = k' <;> simp [GoMap.set, GoMap.get, h3]
    · by_cases h2 : a = k'
      · subst h2
        have : ¬ k = a := fun e => h e.symm
        simp [GoMap.set, GoMap.get, h, this]
      · simp [GoMap.set, GoMap.get, h, h2, ih]

theorem GoMap.get_set_self {V : Type} (m : GoMap V) (k : GoString) (v : V) :
    GoMap.get (GoMap.set m k v) k = some v := by
  simp [GoMap.get_set]

theorem GoMap.get_set_ne {V : Type} (m : GoMap V) (k k' : GoString) (v : V) (h : k ≠ k') :
    GoMap.get (GoMap.set m k v) k' = GoMap.get m k' := by
  simp [GoMap.get_set, h]

/-! ## Lemmas: the line parser -/

theorem isContentChar_eq (c : Char) : isContentChar c = !isCommentStart c := by
  unfold isContentChar isCommentStart
  cases h1 : c == ';' <;> cases h2 : c == '#' <;> simp [bne, h1, h2]

theorem isDelimChar_of_commentStart (c : Char) (h : isCommentStart c = true) :
    isDelimChar c = true := by
  unfold isCommentStart at h
  unfold isDelimChar
  cases h1 : c == ';' <;> cases h2 : c == '#' <;> simp [h1, h2] at h ⊢

theorem isCommentStart_of_not_delim (c : Char) (h : isDelimChar c = false) :
    isCommentStart c = false := by
  cases h2 : isCommentStart c
  · rfl
  · rw [isDelimChar_of_commentStart c h2] at h
    cases h

theorem isSpace_not_delim (c : Char) (h : isSpace c = true) : isDelimChar c = false := by
  cases hd : isDelimChar c
  · rfl
  · exfalso
    unfold isDelimChar at hd
    simp only [Bool.or_eq_true, beq_iff_eq] at hd
    rcases hd with (rfl | rfl) | rfl <;> revert h <;> decide

theorem all_isDotChar_of_isLine (s : GoString) (h : isLine s) : s.all isDotChar = true := by
  rw [List.all_eq_true]
  intro c hc
  unfold isDotChar
  simp only [bne_iff_ne, ne_eq]
  intro e
  exact h (e ▸ hc)

theorem isLine_cons {c : Char} {s : GoString} (h : isLine (c :: s)) : isLine s :=
  fun hm => h (List.mem_cons_of_mem _ hm)

theorem matchHere_of_comment (s : GoString) (hl : isLine s)
    (h : ∃ c ∈ s, isCommentStart c = true) :
    matchHere s = some (beforeComment s, afterComment s) := by
  induction s with
  | nil => simp at h
  | cons c rest ih =>
    cases hc : isCommentStart c
    · have h2 : ∃ d ∈ rest, isCommentStart d = true := by
        obtain ⟨d, hd, hcs⟩ := h
        rcases List.mem_cons.mp hd with rfl | hd
        · rw [hc] at hcs; cases hcs
        · exact ⟨d, hd, hcs⟩
      have ih2 := ih (isLine_cons hl) h2
      simp [matchHere, isContentChar_eq, hc, ih2, beforeComment, afterComment,
        List.takeWhile, List.dropWhile]
    · have hall := all_isDotChar_of_isLine rest (isLine_cons hl)
      simp [matchHere, isContentChar_eq, hc, matchTail, isDelimChar_of_commentStart c hc,
        hall, beforeComment, afterComment, List.takeWhile, List.dropWhile]

theorem FindStringSubmatch_of_comment (s : GoString) (hl : isLine s)
    (h : ∃ c ∈ s, isCommentStart c = true) :
    FindStringSubmatch s = some (beforeComment s, afterComment s) := by
  cases s with
  | nil => simp at h
  | cons c rest =>
    have := matchHere_of_comment (c :: rest) hl h
    simp [FindStringSubmatch, this]

theorem matchHere_none (s : GoString) (h : ∀ c ∈ s, isDelimChar c = false) :
    matchHere s = none := by
  induction s with
  | nil => rfl
  | cons c rest ih =>
    have h1 := h c (List.mem_cons_self _ _)
    have h2 := ih (fun d hd => h d (List.mem_cons_of_mem _ hd))
    simp [matchHere, h2, matchTail, h1]

theorem FindStringSubmatch_none (s : GoString) (h : ∀ c ∈ s, isDelimChar c = false) :
    FindStringSubmatch s = none := by
  induction s with
  | nil => rfl
  | cons c rest ih =>
    have h2 := ih (fun d hd => h d (List.mem_cons_of_mem _ hd))
    simp [FindStringSubmatch, matchHere_none (c :: rest) h, h2]

theorem beforeComment_of_none (s : GoString) (h : ∀ c ∈ s, isCommentStart c = false) :
    beforeComment s = s := by
  unfold beforeComment
  rw [List.takeWhile_eq_self_iff]
  intro c hc
  simp [h c hc]

theorem fieldsAux_of_spaces (s : GoString) (h : ∀ c ∈ s, isSpace c = true) :
    fieldsAux s [] = [] := by
  induction s with
  | nil => simp [fieldsAux]
  | cons c rest ih =>
    have h1 := h c (List.mem_cons_self _ _)
    simp [fieldsAux, h1, ih (fun d hd => h d (List.mem_cons_of_mem _ hd))]

theorem Fields_of_spaces (s : GoString) (h : ∀ c ∈ s, isSpace c = true) : Fields s = [] :=
  fieldsAux_of_spaces s h

theorem kwBody_eq (values : List GoString) (i : Nat) (m : GoMap GoString)
    (h0 : 0 < i) (h : i < values.length) :
    kwBody values i m = some (pairStep values m i) := by
  have h1 : i - 1 < values.length := by omega
  unfold kwBody pairStep
  rw [List.getElem?_eq_getElem h1, List.getElem?_eq_getElem h]

theorem kwLoop_eq (values : List GoString) :
    ∀ (i : Nat) (m : GoMap GoString), i < values.length ∨ i = 0 →
      kwLoop values i m
        = some (List.foldl (pairStep values) m
            ((List.range ((i + 1) / 2)).map (fun j => i - 2 * j)))
  | 0, m, _ => by simp [kwLoop]
  | 1, m, h => by
    have h1 : 1 < values.length := by omega
    simp [kwLoop, kwBody_eq values 1 m (by omega) h1, List.range_succ]
  | i + 2, m, h => by
    have h1 : i + 2 < values.length := by omega
    have hr : (i + 2 + 1) / 2 = (i + 1) / 2 + 1 := by omega
    rw [kwLoop, kwBody_eq values (i + 2) m (by omega) h1, Option.some_bind,
      kwLoop_eq values i _ (by omega), hr, List.range_succ_eq_map]
    simp only [List.map_cons, List.map_map, List.foldl_cons, Nat.mul_zero, Nat.sub_zero]
    congr 2
    apply List.map_congr_left
    intro j _
    simp only [Function.comp, Nat.succ_eq_add_one]
    omega

theorem kwLoop_values (values : List GoString) (m : GoMap GoString) :
    kwLoop values (values.length - 1) m
      = some (List.foldl (pairStep values) m (pairIndices values.length)) := by
  rw [kwLoop_eq values _ m (by omega)]
  unfold pairIndices
  cases hlen : values.length with
  | zero => simp
  | succ n =>
    have : (n + 1 - 1 + 1) / 2 = (n + 1) / 2 := by omega
    rw [this]

/-- What `Load` does, without the panic cases: they do not occur. -/
theorem Load_eq (p : Property) (str : GoString) :
    p.Load str = some
      (match Fields (contentOf str) with
       | [] => (false, { p with keycomment := commentOf p str })
       | f :: fs =>
         (true, { name := f, avals := p.avals ++ fs,
                  kwvals := List.foldl (pairStep fs) p.kwvals (pairIndices fs.length),
                  keycomment := commentOf p str })) := by
  unfold Property.Load contentOf commentOf
  cases hm : FindStringSubmatch str with
  | none =>
    simp only []
    cases hf : Fields str with
    | nil => simp
    | cons f fs =>
      simp [Property.AppendList, kwLoop_values]
  | some r =>
    obtain ⟨ct, cm⟩ := r
    simp only []
    cases hf : Fields ct with
    | nil => simp
    | cons f fs =>
      simp [Property.AppendList, kwLoop_values]

theorem contentOf_of_comment (s : GoString) (hl : isLine s)
    (h : ∃ c ∈ s, isCommentStart c = true) : contentOf s = beforeComment s := by
  simp [contentOf, FindStringSubmatch_of_comment s hl h]

theorem commentOf_of_comment (p : Property) (s : GoString) (hl : isLine s)
    (h : ∃ c ∈ s, isCommentStart c = true) : commentOf p s = afterComment s := by
  simp [commentOf, FindStringSubmatch_of_comment s hl h]

theorem contentOf_of_no_delim (s : GoString) (h : ∀ c ∈ s, isDelimChar c = false) :
    contentOf s = s := by
  simp [contentOf, FindStringSubmatch_none s h]

theorem commentOf_of_no_delim (p : Property) (s : GoString)
    (h : ∀ c ∈ s, isDelimChar c = false) : commentOf p s = p.keycomment := by
  simp [commentOf, FindStringSubmatch_none s h]

theorem contentOf_blank (s : GoString) (hl : isLine s)
    (h : ∀ c ∈ beforeComment s, isSpace c = true) : Fields (contentOf s) = [] := by
  by_cases hc : ∃ c ∈ s, isCommentStart c = true
  · rw [contentOf_of_comment s hl hc]
    exact Fields_of_spaces _ h
  · have hn : ∀ c ∈ s, isCommentStart c = false := by
      intro c hm
      cases hcs : isCommentStart c
      · rfl
      · exact absurd ⟨c, hm, hcs⟩ hc
    rw [beforeComment_of_none s hn] at h
    rw [contentOf_of_no_delim s (fun c hm => isSpace_not_delim c (h c hm))]
    exact Fields_of_spaces _ h

theorem fieldsAux_ne_nil (s : GoString) :
    ∀ cur : GoString, (cur ≠ [] ∨ ∃ c ∈ s, isSpace c = false) → fieldsAux s cur ≠ [] := by
  induction s with
  | nil =>
    intro cur h
    rcases h with h | ⟨c, hc, _⟩
    · simp [fieldsAux, h]
    · simp at hc
  | cons c rest ih =>
    intro cur h
    cases hs : isSpace c
    · simp only [fieldsAux, hs, Bool.false_eq_true, if_false]
      exact ih _ (Or.inl (by simp))
    · simp only [fieldsAux, hs, if_true]
      by_cases hcur : cur = []
      · simp only [hcur, if_true]
        apply ih
        right
        rcases h with h | ⟨d, hd, hds⟩
        · exact absurd hcur h
        · rcases List.mem_cons.mp hd with rfl | hd
          · rw [hs] at hds; cases hds
          · exact ⟨d, hd, hds⟩
      · simp [hcur]

theorem Fields_ne_nil (s : GoString) (h : ∃ c ∈ s, isSpace c = false) : Fields s ≠ [] :=
  fieldsAux_ne_nil s [] (Or.inr h)

theorem LoadString_eq (c : ConfigFile) (line : GoString) :
    c.LoadString line = some
      (match parseLine line with
       | none => c
       | some p => c.place p) := by
  unfold ConfigFile.LoadString parseLine ConfigFile.place
  rw [Load_eq]
  cases Fields (contentOf line) with
  | nil => simp
  | cons f fs =>
    simp only []
    split <;> rfl

/-! ## The line parser: properties -/

/-- C1: whenever `Load` succeeds on a fresh record, the values are the content
tokens after the first and the keyword map is exactly the map built from the
empty one by `m[values[i-1]] = values[i]` for `i = len(values)-1,
len(values)-3, ...` while `i > 0`; on the haproxy `server` line the map is
exactly fall:2, rise:3, inter:5s, 25:check, 10.0.0.1:80:maxconn. -/
theorem Load_keyword_map_pairs_from_right :
    (∀ (n str : GoString) (q : Property), (newProperty n).Load str = some (true, q) →
      q.avals = (Fields (contentOf str)).drop 1 ∧ q.kwvals = pairFromRight q.avals) ∧
    ((newProperty []).Load
        "server 10.0.0.1:80 10.0.0.1:80 maxconn 25 check inter 5s rise 3 fall 2".toList).map
        (fun r => (r.1, r.2.kwvals))
      = some (true, [("fall".toList, "2".toList), ("rise".toList, "3".toList),
          ("inter".toList, "5s".toList), ("25".toList, "check".toList),
          ("10.0.0.1:80".toList, "maxconn".toList)]) := by
  refine ⟨?_, by rfl⟩
  intro n str q h
  rw [Load_eq] at h
  cases hf : Fields (contentOf str) with
  | nil =>
    rw [hf] at h
    simp at h
  | cons f fs =>
    rw [hf] at h
    simp only [Option.some.injEq, Prod.mk.injEq, true_and] at h
    subst h
    simp [newProperty, pairFromRight]

/-- C1, at the line `k a b c`: the map pairs `b` with `c` and leaves `a` out. -/
theorem Load_keyword_map_pairs_from_right_witness :
    (newProperty []).Load "k a b c".toList
        = some (true, { name := "k".toList, avals := ["a".toList, "b".toList, "c".toList],
                        kwvals := [("b".toList, "c".toList)], keycomment := [] }) ∧
      ["a".toList, "b".toList, "c".toList] = (Fields (contentOf "k a b c".toList)).drop 1 ∧
      [("b".toList, "c".toList)] = pairFromRight ["a".toList, "b".toList, "c".toList] :=
  ⟨by rfl, Load_keyword_map_pairs_from_right.1 [] "k a b c".toList
    { name := "k".toList, avals := ["a".toList, "b".toList, "c".toList],
      kwvals := [("b".toList, "c".toList)], keycomment := [] } (by rfl)⟩

/-- C2: on a line (no newline) that holds a `;` or a `#`, `Load` stores the text
after the first of them as the comment and splits the text before it: it
answers false when that text has no field, and otherwise true with the first
field as name and the other fields, in order, as values.  On
`server s1 1.2.3.4:80 check ; primary` the comment is ` primary`, the name
`server` and the values `s1`, `1.2.3.4:80`, `check`. -/
theorem Load_splits_at_first_comment_char :
    (∀ (n str : GoString), isLine str → (∃ c ∈ str, isCommentStart c = true) →
      ∃ ok q, (newProperty n).Load str = some (ok, q) ∧
        q.keycomment = afterComment str ∧
        (Fields (beforeComment str) = [] → ok = false) ∧
        (∀ f fs, Fields (beforeComment str) = f :: fs →
          ok = true ∧ q.name = f ∧ q.avals = fs)) ∧
    ((newProperty []).Load "server s1 1.2.3.4:80 check ; primary".toList).map
        (fun r => (r.1, r.2.keycomment, r.2.name, r.2.avals))
      = some (true, " primary".toList, "server".toList,
          ["s1".toList, "1.2.3.4:80".toList, "check".toList]) := by
  refine ⟨?_, by rfl⟩
  intro n str hl hc
  rw [Load_eq, contentOf_of_comment str hl hc, commentOf_of_comment _ str hl hc]
  cases hf : Fields (beforeComment str) with
  | nil =>
    refine ⟨false, _, rfl, rfl, fun _ => rfl, ?_⟩
    intro f fs h
    cases h
  | cons f fs =>
    refine ⟨true, _, rfl, rfl, ?_, ?_⟩
    · intro h
      cases h
    intro f2 fs2 h
    simp only [List.cons.injEq] at h
    obtain ⟨rfl, rfl⟩ := h
    simp [newProperty]

/-- C2, at the line `a b#c`. -/
theorem Load_splits_at_first_comment_char_witness :
    isLine "a b#c".toList ∧ (∃ c ∈ "a b#c".toList, isCommentStart c = true) ∧
      ∃ ok q, (newProperty []).Load "a b#c".toList = some (ok, q) ∧
        q.keycomment = afterComment "a b#c".toList ∧
        (Fields (beforeComment "a b#c".toList) = [] → ok = false) ∧
        (∀ f fs, Fields (beforeComment "a b#c".toList) = f :: fs →
          ok = true ∧ q.name = f ∧ q.avals = fs) :=
  ⟨by decide, ⟨'#', by decide, by decide⟩,
    Load_splits_at_first_comment_char.1 [] "a b#c".toList (by decide)
      ⟨'#', by decide, by decide⟩⟩

/-- C3: on a line whose text before the first `;` or `#` (the whole line when
there is none) is empty or all white space, `Load` answers false, whatever the
receiver, and `LoadString` leaves the store as it was. -/
theorem Load_blank_content_rejected (str : GoString) (hl : isLine str)
    (hb : ∀ c ∈ beforeComment str, isSpace c = true) :
    (∀ p : Property, ∃ q, p.Load str = some (false, q)) ∧
    (∀ c : ConfigFile, c.LoadString str = some c) := by
  have hf := contentOf_blank str hl hb
  constructor
  · intro p
    rw [Load_eq, hf]
    exact ⟨_, rfl⟩
  · intro c
    rw [LoadString_eq]
    unfold parseLine
    rw [Load_eq, hf]

/-- C3, at the comment-only line `  ; note`. -/
theorem Load_blank_content_rejected_witness :
    isLine "  ; note".toList ∧ (∀ c ∈ beforeComment "  ; note".toList, isSpace c = true) ∧
      (∀ p : Property, ∃ q, p.Load "  ; note".toList = some (false, q)) ∧
      (∀ c : ConfigFile, c.LoadString "  ; note".toList = some c) :=
  ⟨by decide, by decide,
    Load_blank_content_rejected "  ; note".toList (by decide) (by decide)⟩

/-- C4, at the line `|`: it holds a character that is not white space and
neither `;` nor `#`, yet `Load` answers false; and on `a|b c`, whose first
field is `a|b`, the name is `a`. -/
theorem Load_bar_line :
    (isLine "|".toList ∧ (∀ c ∈ "|".toList, isCommentStart c = false) ∧
      (∃ c ∈ "|".toList, isSpace c = false) ∧
      (newProperty []).Load "|".toList = some (false, newProperty [])) ∧
    (Fields "a|b c".toList = ["a|b".toList, "c".toList] ∧
      ((newProperty []).Load "a|b c".toList).map (fun r => (r.1, r.2.name))
        = some (true, "a".toList)) := by
  refine ⟨⟨by decide, by decide, ⟨'|', by decide, by decide⟩, by rfl⟩, by rfl, by rfl⟩

/-- C5, at the line `a b|c`: it holds neither `;` nor `#`, yet `Load` stores
the comment `c` and the only value is `b`, where the fields of the whole line
after the first are `b|c`. -/
theorem Load_bar_starts_comment :
    isLine "a b|c".toList ∧ (∀ c ∈ "a b|c".toList, isCommentStart c = false) ∧
    (Fields "a b|c".toList).drop 1 = ["b|c".toList] ∧
    (newProperty []).Load "a b|c".toList
      = some (true, { name := "a".toList, avals := ["b".toList], kwvals := [],
                      keycomment := "c".toList }) := by
  refine ⟨by decide, by decide, by rfl, by rfl⟩

/-- C6 fails on the line `a \;b`: the `;` follows a backslash and still starts
the comment `b`; it is in no content token, the only value is the backslash. -/
theorem Load_escaped_semicolon_starts_comment :
    (newProperty []).Load ['a', ' ', '\\', ';', 'b']
      = some (true, { name := ['a'], avals := [['\\']], kwvals := [],
                      keycomment := ['b'] }) := by
  rfl

/-- C6, as the code has it: a backslash has no special meaning.  When the first
`;` or `#` of a line follows a backslash, `Load` still splits there: it answers
true, the comment is the text after that character, and the name and values
are the fields of the text before it, backslash included. -/
theorem Load_splits_at_escaped_comment_char (n pre rest : GoString) (d : Char)
    (hl : isLine (pre ++ '\\' :: d :: rest))
    (hpre : ∀ c ∈ pre, isCommentStart c = false) (hd : isCommentStart d = true) :
    ∃ q, (newProperty n).Load (pre ++ '\\' :: d :: rest) = some (true, q) ∧
      q.keycomment = rest ∧ q.name :: q.avals = Fields (pre ++ ['\\']) := by
  have hc : ∃ c ∈ pre ++ '\\' :: d :: rest, isCommentStart c = true :=
    ⟨d, by simp, hd⟩
  have hpre2 : ∀ c ∈ pre ++ ['\\'], (!isCommentStart c) = true := by
    intro c hm
    rcases List.mem_append.mp hm with h | h
    · simp [hpre c h]
    · simp only [List.mem_singleton] at h
      subst h
      decide
  have hsplit : pre ++ '\\' :: d :: rest = (pre ++ ['\\']) ++ d :: rest := by simp
  have hb : beforeComment (pre ++ '\\' :: d :: rest) = pre ++ ['\\'] := by
    unfold beforeComment
    rw [hsplit, List.takeWhile_append_of_pos hpre2]
    simp [List.takeWhile, hd]
  have ha : afterComment (pre ++ '\\' :: d :: rest) = rest := by
    unfold afterComment
    rw [hsplit, List.dropWhile_append_of_pos hpre2]
    simp [List.dropWhile, hd]
  rw [Load_eq, contentOf_of_comment _ hl hc, commentOf_of_comment _ _ hl hc, hb, ha]
  have hne : Fields (pre ++ ['\\']) ≠ [] :=
    Fields_ne_nil _ ⟨'\\', by simp, by decide⟩
  cases hf : Fields (pre ++ ['\\']) with
  | nil => exact absurd hf hne
  | cons f fs => exact ⟨_, rfl, rfl, by simp [newProperty]⟩

/-- C6 as amended, at the line `a\#b`. -/
theorem Load_splits_at_escaped_comment_char_witness :
    isLine (['a'] ++ '\\' :: '#' :: ['b']) ∧
      ∃ q, (newProperty []).Load (['a'] ++ '\\' :: '#' :: ['b']) = some (true, q) ∧
        q.keycomment = ['b'] ∧ q.name :: q.avals = Fields (['a'] ++ ['\\']) :=
  ⟨by decide,
    Load_splits_at_escaped_comment_char [] ['a'] ['b'] '#' (by decide) (by decide) (by decide)⟩

/-! ## Lemmas: the store -/

theorem contains_eq_true_iff (s : List GoString) (e : GoString) :
    contains s e = true ↔ e ∈ s := by
  induction s with
  | nil => simp [contains]
  | cons a t ih =>
    by_cases h : a = e
    · simp [contains, h]
    · have h2 : ¬ e = a := fun x => h x.symm
      simp [contains, h, h2, ih]

theorem contains_append_left (s t : List GoString) (e : GoString) (h : contains s e = true) :
    contains (s ++ t) e = true := by
  rw [contains_eq_true_iff] at h ⊢
  exact List.mem_append_left _ h

theorem asv_sectionList (c : ConfigFile) (s : GoString) (p : Property) :
    (c.AddSectionValue s p).sectionList = c.sectionList := by
  unfold ConfigFile.AddSectionValue
  cases GoMap.get c.sectionData s <;> rfl

theorem asv_heap (c : ConfigFile) (s : GoString) (p : Property) :
    (c.AddSectionValue s p).heap = c.heap ++ [[]] := by
  unfold ConfigFile.AddSectionValue
  cases GoMap.get c.sectionData s <;> rfl

theorem asv_CurrentKeys (c : ConfigFile) (s : GoString) (p : Property) :
    (c.AddSectionValue s p).CurrentKeys = some c.heap.length := by
  unfold ConfigFile.AddSectionValue
  cases GoMap.get c.sectionData s <;> rfl

theorem asv_sectionData_get (c : ConfigFile) (s k : GoString) (p : Property) :
    GoMap.get (c.AddSectionValue s p).sectionData k
      = if s = k then some (GoMap.getSlice c.sectionData s ++ [p])
        else GoMap.get c.sectionData k := by
  unfold ConfigFile.AddSectionValue
  cases h : GoMap.get c.sectionData s with
  | none =>
    simp only [GoMap.get_set, GoMap.getSlice, h, if_true, Option.getD_some, Option.getD_none]
    split <;> rfl
  | some v =>
    simp only [GoMap.get_set, GoMap.getSlice, h, Option.getD_some]

theorem asv_data_get (c : ConfigFile) (s k : GoString) (p : Property) :
    GoMap.get (c.AddSectionValue s p).data k
      = if s = k then
          some ((match GoMap.get c.sectionData s with
                 | some _ => GoMap.getSlice c.data s
                 | none => []) ++ [c.heap.length])
        else GoMap.get c.data k := by
  unfold ConfigFile.AddSectionValue
  cases h : GoMap.get c.sectionData s with
  | none =>
    simp only [GoMap.get_set, GoMap.getSlice, if_true, Option.getD_some]
    split <;> rfl
  | some v =>
    simp only [GoMap.get_set, GoMap.getSlice]

theorem addKey_get (t : KeyTable) (p : Property) (k : GoString) :
    GoMap.get (addKey t p) k
      = if p.name = k then some (GoMap.getSlice t p.name ++ [p]) else GoMap.get t k := by
  unfold addKey
  cases h : GoMap.get t p.name with
  | none =>
    simp only [GoMap.get_set, GoMap.getSlice, h, if_true, Option.getD_some, Option.getD_none]
    split <;> rfl
  | some v =>
    simp only [GoMap.get_set, GoMap.getSlice, h, Option.getD_some]

theorem named_cons_eq (k : GoString) (p : Property) (rest : List Property)
    (h : p.name = k) : named k (p :: rest) = p :: named k rest := by
  simp [named, h]

theorem named_cons_ne (k : GoString) (p : Property) (rest : List Property)
    (h : p.name ≠ k) : named k (p :: rest) = named k rest := by
  simp [named, h]

theorem named_append (k : GoString) (l1 l2 : List Property) :
    named k (l1 ++ l2) = named k l1 ++ named k l2 := by
  simp [named]

theorem addKey_getSlice (t : KeyTable) (p : Property) (k : GoString) :
    GoMap.getSlice (addKey t p) k
      = if p.name = k then GoMap.getSlice t k ++ [p] else GoMap.getSlice t k := by
  unfold GoMap.getSlice
  rw [addKey_get]
  by_cases h : p.name = k
  · subst h
    simp [GoMap.getSlice]
  · simp [h]

theorem foldl_addKey_get (recs : List Property) (k : GoString) :
    ∀ t : KeyTable, GoMap.get (recs.foldl addKey t) k
      = if named k recs = [] then GoMap.get t k
        else some (GoMap.getSlice t k ++ named k recs) := by
  induction recs with
  | nil => intro t; simp [named]
  | cons p rest ih =>
    intro t
    rw [List.foldl_cons, ih]
    by_cases hp : p.name = k
    · rw [named_cons_eq k p rest hp, addKey_getSlice, addKey_get]
      subst hp
      by_cases hr : named p.name rest = []
      · simp [hr]
      · simp [hr]
    · rw [named_cons_ne k p rest hp, addKey_getSlice, addKey_get]
      simp [hp]

theorem foldl_addKey_empty_get (recs : List Property) (k : GoString) :
    GoMap.get (recs.foldl addKey ([] : KeyTable)) k = entryOf (named k recs) := by
  rw [foldl_addKey_get]
  unfold entryOf
  split <;> simp [GoMap.get, GoMap.getSlice]

theorem SetKey_of_some (c : ConfigFile) (p : Property) (r : Nat) (h : c.CurrentKeys = some r) :
    c.SetKey p = { c with heap := c.heap.set r (addKey (c.deref r) p) } := by
  unfold ConfigFile.SetKey
  simp [h]

theorem SetKey_of_none (c : ConfigFile) (p : Property) (h : c.CurrentKeys = none) :
    c.SetKey p =
      { (c.SetSectionName [DEFAULT_SECTION]).AddSectionValue DEFAULT_SECTION
          (newProperty DEFAULT_SECTION) with
        heap := c.heap ++ [addKey [] p] } := by
  unfold ConfigFile.SetKey
  simp only [h, if_true, asv_CurrentKeys, asv_heap, ConfigFile.deref, ConfigFile.SetSectionName]
  congr 1
  simp [List.getD_eq_getElem?_getD]

theorem place_of_header (c : ConfigFile) (p : Property)
    (h : contains c.sectionList p.name = true) : c.place p = c.AddSectionValue p.name p := by
  simp [ConfigFile.place, h]

theorem place_of_key (c : ConfigFile) (p : Property)
    (h : contains c.sectionList p.name = false) : c.place p = c.SetKey p := by
  simp [ConfigFile.place, h]

theorem LoadStrings_eq (lines : List GoString) :
    ∀ c : ConfigFile, c.LoadStrings lines
      = some ((lines.filterMap parseLine).foldl ConfigFile.place c) := by
  induction lines with
  | nil => intro c; rfl
  | cons l rest ih =>
    intro c
    rw [ConfigFile.LoadStrings, LoadString_eq, Option.some_bind, ih]
    cases h : parseLine l <;> simp [List.filterMap_cons, h]

theorem deref_set_self (c : ConfigFile) (r : Nat) (t : KeyTable) (h : r < c.heap.length) :
    ({ c with heap := c.heap.set r t } : ConfigFile).deref r = t := by
  simp [ConfigFile.deref, List.getD_eq_getElem?_getD, List.getElem?_set, h]

theorem heap_set_deref (c : ConfigFile) (r : Nat) (h : r < c.heap.length) :
    c.heap.set r (c.deref r) = c.heap := by
  apply List.ext_getElem?
  intro i
  rw [List.getElem?_set]
  by_cases hi : r = i
  · subst hi
    simp [h, ConfigFile.deref, List.getD_eq_getElem?_getD, List.getElem?_eq_getElem h]
  · simp [hi]

/-- A run of key records: they all go into the table `CurrentKeys` points to,
and nothing else in the store changes. -/
theorem foldl_place_keys (recs : List Property) :
    ∀ (c : ConfigFile) (r : Nat), c.CurrentKeys = some r → r < c.heap.length →
      (∀ p ∈ recs, contains c.sectionList p.name = false) →
      recs.foldl ConfigFile.place c
        = { c with heap := c.heap.set r (recs.foldl addKey (c.deref r)) } := by
  induction recs with
  | nil =>
    intro c r _ hr _
    simp [heap_set_deref c r hr]
  | cons p rest ih =>
    intro c r hc hr hk
    have hp := hk p (List.mem_cons_self _ _)
    rw [List.foldl_cons, place_of_key c p hp, SetKey_of_some c p r hc]
    have hstep := ih { c with heap := c.heap.set r (addKey (c.deref r) p) } r hc
      (by simpa using hr) (fun q hq => hk q (List.mem_cons_of_mem _ hq))
    rw [hstep, deref_set_self c r _ hr]
    simp [List.set_set]

theorem WF_new : NewConfigFile.WF := by
  constructor
  · intro s h
    simp [NewConfigFile, GoMap.get] at h
  · intro s refs h
    simp [NewConfigFile, GoMap.get] at h

theorem WF_SetSectionName (c : ConfigFile) (l : List GoString) (h : c.WF) :
    (c.SetSectionName l).WF := h

theorem WF_asv (c : ConfigFile) (s : GoString) (p : Property) (h : c.WF) :
    (c.AddSectionValue s p).WF := by
  obtain ⟨h1, h2⟩ := h
  constructor
  · intro k hk
    rw [asv_sectionData_get]
    rw [asv_data_get] at hk
    by_cases e : s = k
    · simp [e]
    · simp only [e, if_false] at hk ⊢
      exact h1 k hk
  · intro k refs hk r hr
    rw [asv_heap]
    rw [asv_data_get] at hk
    simp only [List.length_append, List.length_singleton]
    by_cases e : s = k
    · simp only [e, if_true, Option.some.injEq] at hk
      subst hk
      rcases List.mem_append.mp hr with hr | hr
      · cases hg : GoMap.get c.sectionData k with
        | none => simp [hg] at hr
        | some v =>
          simp only [hg] at hr
          cases hd : GoMap.get c.data k with
          | none => simp [GoMap.getSlice, hd] at hr
          | some refs0 =>
            simp only [GoMap.getSlice, hd, Option.getD_some] at hr
            exact Nat.lt_succ_of_lt (h2 k refs0 hd r hr)
      · simp only [List.mem_singleton] at hr
        omega
    · simp only [e, if_false] at hk
      exact Nat.lt_succ_of_lt (h2 k refs hk r hr)

theorem WF_of_same (c c1 : ConfigFile) (h : c.WF) (hd : c1.data = c.data)
    (hs : c1.sectionData = c.sectionData) (hh : c1.heap.length = c.heap.length) : c1.WF := by
  obtain ⟨h1, h2⟩ := h
  unfold ConfigFile.WF
  rw [hd, hs, hh]
  exact ⟨h1, h2⟩

theorem WF_SetKey (c : ConfigFile) (p : Property) (h : c.WF) : (c.SetKey p).WF := by
  cases hc : c.CurrentKeys with
  | none =>
    rw [SetKey_of_none c p hc]
    refine WF_of_same _ _ (WF_asv _ DEFAULT_SECTION (newProperty DEFAULT_SECTION)
      (WF_SetSectionName c [DEFAULT_SECTION] h)) rfl rfl ?_
    rw [asv_heap]
    simp [ConfigFile.SetSectionName]
  | some r =>
    rw [SetKey_of_some c p r hc]
    exact WF_of_same _ _ h rfl rfl (by simp)

theorem WF_place (c : ConfigFile) (p : Property) (h : c.WF) : (c.place p).WF := by
  unfold ConfigFile.place
  split
  · exact WF_asv _ _ _ h
  · exact WF_SetKey _ _ h

/-- The invariant holds in every store built from `NewConfigFile` by
`SetSectionName` and `LoadString`. -/
theorem WF_LoadString (c c1 : ConfigFile) (line : GoString) (h : c.WF)
    (hl : c.LoadString line = some c1) : c1.WF := by
  rw [LoadString_eq] at hl
  simp only [Option.some.injEq] at hl
  subst hl
  cases parseLine line with
  | none => exact h
  | some p => exact WF_place c p h

theorem getD_append_lt (h : List KeyTable) (t : KeyTable) (r : Nat) (hr : r < h.length) :
    (h ++ [t]).getD r [] = h.getD r [] := by
  simp [List.getD_eq_getElem?_getD, List.getElem?_append_left hr]

theorem getD_append_length (h : List KeyTable) (t : KeyTable) :
    (h ++ [t]).getD h.length [] = t := by
  simp [List.getD_eq_getElem?_getD]

theorem set_append_length (h : List KeyTable) (t u : KeyTable) :
    (h ++ [t]).set h.length u = h ++ [u] := by
  rw [List.set_append_right _ _ (Nat.le_refl _)]
  simp

theorem mem_parsed (lines : List GoString) (q : Property)
    (h : q ∈ lines.filterMap parseLine) : ∃ l ∈ lines, parseLine l = some q := by
  rw [List.mem_filterMap] at h
  exact h

/-- A header and the run of key records after it: the store after them. -/
theorem foldl_place_header_keys (c : ConfigFile) (ph : Property) (recs : List Property)
    (hrec : contains c.sectionList ph.name = true)
    (hk : ∀ q ∈ recs, contains c.sectionList q.name = false) :
    (ph :: recs).foldl ConfigFile.place c
      = { c.AddSectionValue ph.name ph with heap := c.heap ++ [recs.foldl addKey []] } := by
  rw [List.foldl_cons, place_of_header c ph hrec]
  rw [foldl_place_keys recs (c.AddSectionValue ph.name ph) c.heap.length
    (asv_CurrentKeys _ _ _) (by rw [asv_heap]; simp)
    (by rw [asv_sectionList]; exact hk)]
  congr 1
  rw [ConfigFile.deref, asv_heap, getD_append_length, set_append_length]

theorem asv_data_get_of_WF (c : ConfigFile) (h : c.WF) (s k : GoString) (p : Property) :
    GoMap.get (c.AddSectionValue s p).data k
      = if s = k then some (GoMap.getSlice c.data s ++ [c.heap.length])
        else GoMap.get c.data k := by
  rw [asv_data_get]
  cases hs : GoMap.get c.sectionData s with
  | some v => rfl
  | none =>
    have hd : GoMap.get c.data s = none := by
      cases hd : GoMap.get c.data s with
      | none => rfl
      | some refs =>
        have := h.1 s (by simp [hd])
        simp [hs] at this
    simp [GoMap.getSlice, hd]

theorem map_deref_append (c : ConfigFile) (h : c.WF) (c1 : ConfigFile) (t : KeyTable)
    (hh : c1.heap = c.heap ++ [t]) (s : GoString) :
    (GoMap.getSlice c.data s).map c1.deref = (GoMap.getSlice c.data s).map c.deref := by
  apply List.map_congr_left
  intro r hr
  have hlt : r < c.heap.length := by
    cases hd : GoMap.get c.data s with
    | none => simp [GoMap.getSlice, hd] at hr
    | some refs =>
      simp only [GoMap.getSlice, hd, Option.getD_some] at hr
      exact h.2 s refs hd r hr
  unfold ConfigFile.deref
  rw [hh, getD_append_lt _ _ _ hlt]

theorem GetKeysIndex_last (c : ConfigFile) (s : GoString) (old : List KeyTable) (t : KeyTable)
    (h : c.GetALLKeys s = .ok (old ++ [t])) :
    c.GetKeysIndex s (old.length : Nat) = some (.ok t) := by
  unfold ConfigFile.GetKeysIndex
  rw [h]
  simp

/-! ## The store: properties -/

/-- C7: in a store that satisfies the representation invariant, after
`LoadString` of a header line whose name is recognized and then of lines that
are no headers (blank, or with a name that is not recognized), the key table at
the last index of the header's section maps each key name to exactly the
records of those lines with that name, in their order, and has no other entry;
the earlier tables of that section and the tables of all other sections are
what they were. -/
theorem key_routing_after_header (c : ConfigFile) (hwf : c.WF) (header : GoString)
    (ph : Property) (keys : List GoString) (hh : parseLine header = some ph)
    (hrec : contains c.sectionList ph.name = true)
    (hk : ∀ l ∈ keys, ∀ q, parseLine l = some q → contains c.sectionList q.name = false) :
    ∃ c1 table, c.LoadStrings (header :: keys) = some c1 ∧
      c1.GetALLKeys ph.name
        = .ok ((GoMap.getSlice c.data ph.name).map c.deref ++ [table]) ∧
      c1.GetKeysIndex ph.name ((GoMap.getSlice c.data ph.name).length : Nat)
        = some (.ok table) ∧
      (∀ k, GoMap.get table k = entryOf (named k (keys.filterMap parseLine))) ∧
      (∀ s, s ≠ ph.name → c1.GetALLKeys s = c.GetALLKeys s) := by
  have hk2 : ∀ q ∈ keys.filterMap parseLine, contains c.sectionList q.name = false := by
    intro q hq
    obtain ⟨l, hl, hp⟩ := mem_parsed keys q hq
    exact hk l hl q hp
  have hrun : c.LoadStrings (header :: keys)
      = some { c.AddSectionValue ph.name ph with
               heap := c.heap ++ [(keys.filterMap parseLine).foldl addKey []] } := by
    rw [LoadStrings_eq, List.filterMap_cons, hh]
    simp only []
    rw [foldl_place_header_keys c ph _ hrec hk2]
  have hall : ({ c.AddSectionValue ph.name ph with
        heap := c.heap ++ [(keys.filterMap parseLine).foldl addKey []] } :
        ConfigFile).GetALLKeys ph.name
      = .ok ((GoMap.getSlice c.data ph.name).map c.deref
          ++ [(keys.filterMap parseLine).foldl addKey []]) := by
    unfold ConfigFile.GetALLKeys
    simp only [asv_data_get_of_WF c hwf, if_true, List.map_append, List.map_cons, List.map_nil]
    rw [map_deref_append c hwf _ _ rfl]
    simp [ConfigFile.deref, getD_append_length]
  refine ⟨_, (keys.filterMap parseLine).foldl addKey [], hrun, hall, ?_, ?_, ?_⟩
  · have := GetKeysIndex_last _ _ _ _ hall
    simpa using this
  · intro k
    exact foldl_addKey_empty_get _ k
  · intro s hs
    unfold ConfigFile.GetALLKeys
    have hne : ¬ ph.name = s := fun e => hs e.symm
    simp only [asv_data_get_of_WF c hwf, hne, if_false]
    cases hd : GoMap.get c.data s with
    | none => rfl
    | some refs =>
      simp only []
      have := map_deref_append c hwf
        ({ c.AddSectionValue ph.name ph with
           heap := c.heap ++ [(keys.filterMap parseLine).foldl addKey []] }) _ rfl s
      simp only [GoMap.getSlice, hd, Option.getD_some] at this
      rw [this]

theorem SetKey_sectionData_get (c : ConfigFile) (p : Property) (n : GoString)
    (hd : n ≠ DEFAULT_SECTION) :
    GoMap.get (c.SetKey p).sectionData n = GoMap.get c.sectionData n := by
  have hne : ¬ DEFAULT_SECTION = n := fun e => hd e.symm
  cases hc : c.CurrentKeys with
  | none =>
    rw [SetKey_of_none c p hc]
    simp only []
    rw [asv_sectionData_get]
    simp [hne, ConfigFile.SetSectionName]
  | some r => rw [SetKey_of_some c p r hc]

theorem SetKey_data_get (c : ConfigFile) (p : Property) (n : GoString)
    (hd : n ≠ DEFAULT_SECTION) :
    GoMap.get (c.SetKey p).data n = GoMap.get c.data n := by
  have hne : ¬ DEFAULT_SECTION = n := fun e => hd e.symm
  cases hc : c.CurrentKeys with
  | none =>
    rw [SetKey_of_none c p hc]
    simp only []
    rw [asv_data_get]
    simp [hne, ConfigFile.SetSectionName]
  | some r => rw [SetKey_of_some c p r hc]

theorem SetKey_sectionList (c : ConfigFile) (p : Property) (n : GoString)
    (h : contains c.sectionList n = true) : contains (c.SetKey p).sectionList n = true := by
  cases hc : c.CurrentKeys with
  | none =>
    rw [SetKey_of_none c p hc]
    simp only []
    rw [asv_sectionList]
    exact contains_append_left _ _ _ h
  | some r =>
    rw [SetKey_of_some c p r hc]
    exact h

theorem place_sectionList (c : ConfigFile) (p : Property) (n : GoString)
    (h : contains c.sectionList n = true) : contains (c.place p).sectionList n = true := by
  unfold ConfigFile.place
  split
  · rw [asv_sectionList]; exact h
  · exact SetKey_sectionList c p n h

theorem place_sectionData_get (c : ConfigFile) (p : Property) (n : GoString)
    (hn : contains c.sectionList n = true) (hd : n ≠ DEFAULT_SECTION) :
    GoMap.get (c.place p).sectionData n
      = if p.name = n then some (GoMap.getSlice c.sectionData n ++ [p])
        else GoMap.get c.sectionData n := by
  by_cases hrec : contains c.sectionList p.name = true
  · rw [place_of_header c p hrec, asv_sectionData_get]
    by_cases e : p.name = n
    · subst e; simp
    · simp [e]
  · have hrec2 : contains c.sectionList p.name = false := by simpa using hrec
    have e : ¬ p.name = n := fun e => by rw [e, hn] at hrec2; cases hrec2
    rw [place_of_key c p hrec2, SetKey_sectionData_get c p n hd]
    simp [e]

theorem place_data_get (c : ConfigFile) (hwf : c.WF) (p : Property) (n : GoString)
    (hn : contains c.sectionList n = true) (hd : n ≠ DEFAULT_SECTION) :
    GoMap.get (c.place p).data n
      = if p.name = n then some (GoMap.getSlice c.data n ++ [c.heap.length])
        else GoMap.get c.data n := by
  by_cases hrec : contains c.sectionList p.name = true
  · rw [place_of_header c p hrec, asv_data_get_of_WF c hwf]
    by_cases e : p.name = n
    · subst e; simp
    · simp [e]
  · have hrec2 : contains c.sectionList p.name = false := by simpa using hrec
    have e : ¬ p.name = n := fun e => by rw [e, hn] at hrec2; cases hrec2
    rw [place_of_key c p hrec2, SetKey_data_get c p n hd]
    simp [e]

/-- The header records and the number of key tables of a recognized section
other than the default one, after a run of records. -/
theorem foldl_place_section (n : GoString) (hd : n ≠ DEFAULT_SECTION)
    (recs : List Property) :
    ∀ c : ConfigFile, c.WF → contains c.sectionList n = true →
      GoMap.get (recs.foldl ConfigFile.place c).sectionData n
          = (if named n recs = [] then GoMap.get c.sectionData n
             else some (GoMap.getSlice c.sectionData n ++ named n recs)) ∧
      ∃ refs, GoMap.get (recs.foldl ConfigFile.place c).data n
          = (if named n recs = [] then GoMap.get c.data n else some refs) ∧
        refs.length = (GoMap.getSlice c.data n).length + (named n recs).length := by
  induction recs with
  | nil =>
    intro c _ _
    exact ⟨by simp [named], GoMap.getSlice c.data n, by simp [named], by simp [named]⟩
  | cons p rest ih =>
    intro c hwf hn
    obtain ⟨ih1, refs, ih2, ih3⟩ := ih (c.place p) (WF_place c p hwf) (place_sectionList c p n hn)
    have hs := place_sectionData_get c p n hn hd
    have hdt := place_data_get c hwf p n hn hd
    have hS : GoMap.getSlice (c.place p).sectionData n
        = if p.name = n then GoMap.getSlice c.sectionData n ++ [p]
          else GoMap.getSlice c.sectionData n := by
      unfold GoMap.getSlice
      rw [hs]
      split <;> rfl
    have hD : GoMap.getSlice (c.place p).data n
        = if p.name = n then GoMap.getSlice c.data n ++ [c.heap.length]
          else GoMap.getSlice c.data n := by
      unfold GoMap.getSlice
      rw [hdt]
      split <;> rfl
    rw [List.foldl_cons, ih1, ih2, hs, hdt, hS]
    rw [hD] at ih3
    by_cases e : p.name = n
    · rw [named_cons_eq n p rest e]
      simp only [e, if_true] at ih3 ⊢
      by_cases hr : named n rest = []
      · simp only [hr, if_true, List.length_nil, Nat.add_zero] at ih3 ⊢
        refine ⟨by simp, GoMap.getSlice c.data n ++ [c.heap.length], by simp, by simp⟩
      · simp only [hr, if_false] at ih3 ⊢
        refine ⟨by simp, refs, by simp, ?_⟩
        rw [ih3]
        simp only [List.length_append, List.length_cons, List.length_nil]
        omega
    · rw [named_cons_ne n p rest e]
      simp only [e, if_false] at ih3 ⊢
      exact ⟨trivial, refs, rfl, ih3⟩

theorem named_parsed_eq (n : GoString) (lines : List GoString) :
    (named n (lines.filterMap parseLine)).map some
      = (lines.filter (headedBy n)).map parseLine := by
  induction lines with
  | nil => rfl
  | cons l rest ih =>
    cases hp : parseLine l with
    | none =>
      have hh : headedBy n l = false := by simp [headedBy, hp]
      simp [List.filterMap_cons, hp, List.filter_cons, hh, ih]
    | some q =>
      by_cases e : q.name = n
      · have hh : headedBy n l = true := by simp [headedBy, hp, e]
        simp only [List.filterMap_cons, hp, List.filter_cons, hh, if_true, List.map_cons]
        rw [named_cons_eq n q _ e, List.map_cons, ih]
      · have hh : headedBy n l = false := by simp [headedBy, hp, e]
        simp only [List.filterMap_cons, hp, List.filter_cons, hh]
        rw [named_cons_ne n q _ e, ih]
        simp

theorem named_ne_nil_of_mem (n : GoString) (recs : List Property) (p : Property)
    (hm : p ∈ recs) (hp : p.name = n) : named n recs ≠ [] := by
  intro h
  have : p ∈ named n recs := by
    unfold named
    rw [List.mem_filter]
    exact ⟨hm, by simp [hp]⟩
  rw [h] at this
  cases this

/-- C8: on a fresh store with any recognized names, after any lines, for a
recognized name `n` other than `DEFAULT` that heads at least one line:
`GetSection n` and `GetALLKeys n` succeed, both with as many elements as there
are lines whose record is named `n`, and the i-th record of `GetSection n` is
the record parsed from the i-th such line. -/
theorem section_instancing (names lines : List GoString) (n : GoString)
    (hn : n ∈ names) (hd : n ≠ DEFAULT_SECTION)
    (hex : ∃ l ∈ lines, ∃ p, parseLine l = some p ∧ p.name = n) :
    ∃ c1 recs tabs, (NewConfigFile.SetSectionName names).LoadStrings lines = some c1 ∧
      c1.GetSection n = .ok recs ∧ c1.GetALLKeys n = .ok tabs ∧
      recs.length = (lines.filter (headedBy n)).length ∧
      tabs.length = (lines.filter (headedBy n)).length ∧
      recs.map some = (lines.filter (headedBy n)).map parseLine := by
  have hwf : (NewConfigFile.SetSectionName names).WF := WF_SetSectionName _ _ WF_new
  have hc : contains (NewConfigFile.SetSectionName names).sectionList n = true := by
    rw [contains_eq_true_iff]
    simpa [ConfigFile.SetSectionName, NewConfigFile] using hn
  obtain ⟨h1, refs, h2, h3⟩ :=
    foldl_place_section n hd (lines.filterMap parseLine) _ hwf hc
  have hne : named n (lines.filterMap parseLine) ≠ [] := by
    obtain ⟨l, hl, p, hp, hpn⟩ := hex
    exact named_ne_nil_of_mem n _ p (List.mem_filterMap.mpr ⟨l, hl, hp⟩) hpn
  simp only [hne, if_false] at h1 h2
  have hlen : (named n (lines.filterMap parseLine)).length
      = (lines.filter (headedBy n)).length := by
    have := congrArg List.length (named_parsed_eq n lines)
    simpa using this
  refine ⟨(lines.filterMap parseLine).foldl ConfigFile.place
      (NewConfigFile.SetSectionName names),
    named n (lines.filterMap parseLine),
    refs.map (ConfigFile.deref ((lines.filterMap parseLine).foldl ConfigFile.place
      (NewConfigFile.SetSectionName names))),
    LoadStrings_eq lines _, ?_, ?_, hlen, ?_, named_parsed_eq n lines⟩
  · unfold ConfigFile.GetSection
    rw [h1]
    simp [GoMap.getSlice, ConfigFile.SetSectionName, NewConfigFile, GoMap.get]
  · unfold ConfigFile.GetALLKeys
    rw [h2]
  · rw [List.length_map, h3, ← hlen]
    simp [GoMap.getSlice, ConfigFile.SetSectionName, NewConfigFile, GoMap.get]

theorem first_key_on_fresh (names : List GoString) (p : Property)
    (h : contains names p.name = false) :
    (NewConfigFile.SetSectionName names).place p = defaultOnly names (addKey [] p) := by
  have hk : contains (NewConfigFile.SetSectionName names).sectionList p.name = false := by
    simpa [ConfigFile.SetSectionName, NewConfigFile] using h
  rw [place_of_key _ p hk, SetKey_of_none _ p rfl]
  simp [defaultOnly, ConfigFile.AddSectionValue, ConfigFile.SetSectionName, NewConfigFile,
    GoMap.get, GoMap.set, GoMap.getSlice]

theorem keys_after_first (names : List GoString) (p : Property) (recs : List Property)
    (h : ∀ q ∈ recs, contains (names ++ [DEFAULT_SECTION]) q.name = false) :
    recs.foldl ConfigFile.place (defaultOnly names (addKey [] p))
      = defaultOnly names ((p :: recs).foldl addKey []) := by
  rw [foldl_place_keys recs (defaultOnly names (addKey [] p)) 0 rfl (by simp [defaultOnly]) h]
  simp [defaultOnly, ConfigFile.deref]

theorem defaultOnly_GetALLKeys (names : List GoString) (t : KeyTable) :
    (defaultOnly names t).GetALLKeys DEFAULT_SECTION = .ok [t] := by
  simp [ConfigFile.GetALLKeys, defaultOnly, GoMap.get, ConfigFile.deref]

theorem defaultOnly_GetKeysIndex (names : List GoString) (t : KeyTable) :
    (defaultOnly names t).GetKeysIndex DEFAULT_SECTION 0 = some (.ok t) := by
  unfold ConfigFile.GetKeysIndex
  rw [defaultOnly_GetALLKeys]
  simp

theorem contains_append_single (names : List GoString) (d x : GoString)
    (h1 : contains names x = false) (h2 : x ≠ d) : contains (names ++ [d]) x = false := by
  cases h : contains (names ++ [d]) x with
  | false => rfl
  | true =>
    rw [contains_eq_true_iff] at h
    rcases List.mem_append.mp h with h | h
    · rw [← contains_eq_true_iff, h1] at h
      cases h
    · simp only [List.mem_singleton] at h
      exact absurd h h2

/-- C9 fails with `listen` recognized on the lines `maxconn 5`, `DEFAULT x`:
the name `DEFAULT` is not in the recognized list and no header came before,
yet the second line does not go into the instance the first one opened: it
opens a second `DEFAULT` instance, and its record is in no key table. -/
theorem further_default_line_opens_second_instance :
    contains ["listen".toList] DEFAULT_SECTION = false ∧
    ((NewConfigFile.SetSectionName ["listen".toList]).LoadStrings
        ["maxconn 5".toList, "DEFAULT x".toList]).map
        (fun c => (c.GetSection DEFAULT_SECTION, c.GetALLKeys DEFAULT_SECTION))
      = some (.ok
          [{ name := DEFAULT_SECTION, avals := [], kwvals := [], keycomment := [] },
           { name := DEFAULT_SECTION, avals := ["x".toList], kwvals := [],
             keycomment := [] }],
          .ok [[("maxconn".toList,
                 [{ name := "maxconn".toList, avals := ["5".toList], kwvals := [],
                    keycomment := [] }])],
               []]) := by
  constructor <;> rfl

/-- C9, as the code has it: on a fresh store with any recognized names,
`LoadString` of a line whose record `p` has a name that is not recognized
makes `DEFAULT` recognized and creates exactly one section instance, under
`DEFAULT`, headed by a record named `DEFAULT` without values;
`GetKeysIndex("DEFAULT", 0)` holds `p` as the only record under its name and no
other key.  Further lines whose names are neither in the recognized list nor
`DEFAULT` leave that single instance and file their records, in order, in the
same table. -/
theorem default_section_fallback (names : List GoString) (line : GoString) (p : Property)
    (more : List GoString) (hp : parseLine line = some p)
    (hnr : contains names p.name = false)
    (hmore : ∀ l ∈ more, ∀ q, parseLine l = some q →
      contains names q.name = false ∧ q.name ≠ DEFAULT_SECTION) :
    ∃ c1 t c2 t2,
      (NewConfigFile.SetSectionName names).LoadString line = some c1 ∧
      c1.sectionList = names ++ [DEFAULT_SECTION] ∧
      c1.GetALLSection
        = [(DEFAULT_SECTION,
            [{ name := DEFAULT_SECTION, avals := [], kwvals := [], keycomment := [] }])] ∧
      c1.GetALLKeys DEFAULT_SECTION = .ok [t] ∧
      c1.GetKeysIndex DEFAULT_SECTION 0 = some (.ok t) ∧
      (∀ k, GoMap.get t k = if p.name = k then some [p] else none) ∧
      c1.LoadStrings more = some c2 ∧
      c2.GetALLSection = c1.GetALLSection ∧
      c2.GetALLKeys DEFAULT_SECTION = .ok [t2] ∧
      (∀ k, GoMap.get t2 k = entryOf (named k (p :: more.filterMap parseLine))) := by
  have hk2 : ∀ q ∈ more.filterMap parseLine,
      contains (names ++ [DEFAULT_SECTION]) q.name = false := by
    intro q hq
    obtain ⟨l, hl, hq2⟩ := mem_parsed more q hq
    obtain ⟨h1, h2⟩ := hmore l hl q hq2
    exact contains_append_single names DEFAULT_SECTION q.name h1 h2
  refine ⟨defaultOnly names (addKey [] p), addKey [] p,
    defaultOnly names ((p :: more.filterMap parseLine).foldl addKey []),
    (p :: more.filterMap parseLine).foldl addKey [], ?_, rfl, rfl,
    defaultOnly_GetALLKeys _ _, defaultOnly_GetKeysIndex _ _, ?_, ?_, rfl,
    defaultOnly_GetALLKeys _ _, ?_⟩
  · rw [LoadString_eq, hp]
    simp only []
    rw [first_key_on_fresh names p hnr]
  · intro k
    rw [addKey_get]
    simp [GoMap.get, GoMap.getSlice]
  · rw [LoadStrings_eq, keys_after_first names p _ hk2]
  · intro k
    exact foldl_addKey_empty_get _ k

/-- C10 fails on the lines `a`, `DEFAULT x` with no recognized name set: the
first line opens the default section and registers `DEFAULT`, so the second
line is taken as a header: the store has two instances of `DEFAULT` and the
second record is in no key table. -/
theorem default_line_opens_second_instance :
    (NewConfigFile.LoadStrings ["a".toList, "DEFAULT x".toList]).map
        (fun c => (c.sectionList, c.GetALLSection, c.GetALLKeys DEFAULT_SECTION))
      = some ([DEFAULT_SECTION],
          [(DEFAULT_SECTION,
            [{ name := DEFAULT_SECTION, avals := [], kwvals := [], keycomment := [] },
             { name := DEFAULT_SECTION, avals := ["x".toList], kwvals := [],
               keycomment := [] }])],
          .ok [[("a".toList,
                 [{ name := "a".toList, avals := [], kwvals := [], keycomment := [] }])],
               []]) := by
  rfl

/-- C10, as the code has it: with no recognized name set, on a fresh store, as
long as no record after the first one is named `DEFAULT`, no line is taken as
a header: with no record the store stays empty, and otherwise it has exactly
one section instance, the default one, whose key table holds under each name
exactly the records of that name, in order.  (The default section registers
`DEFAULT`, so a later line of that name is a header.) -/
theorem no_header_without_section_names (lines : List GoString)
    (h : ∀ q ∈ (lines.filterMap parseLine).tail, q.name ≠ DEFAULT_SECTION) :
    ∃ c1, NewConfigFile.LoadStrings lines = some c1 ∧
      ((lines.filterMap parseLine = [] ∧ c1 = NewConfigFile) ∨
       (lines.filterMap parseLine ≠ [] ∧
        c1.GetALLSection
          = [(DEFAULT_SECTION,
              [{ name := DEFAULT_SECTION, avals := [], kwvals := [], keycomment := [] }])] ∧
        ∃ t, c1.GetALLKeys DEFAULT_SECTION = .ok [t] ∧
          ∀ k, GoMap.get t k = entryOf (named k (lines.filterMap parseLine)))) := by
  rw [LoadStrings_eq]
  cases hrecs : lines.filterMap parseLine with
  | nil => exact ⟨_, rfl, Or.inl ⟨rfl, rfl⟩⟩
  | cons p rest =>
    rw [hrecs] at h
    have hk : ∀ q ∈ rest, contains ([] ++ [DEFAULT_SECTION]) q.name = false := by
      intro q hq
      have hne := h q hq
      have hne2 : ¬ DEFAULT_SECTION = q.name := fun e => hne e.symm
      simp [contains, hne2]
    have hfirst := first_key_on_fresh [] p (by simp [contains])
    have hnew : NewConfigFile.SetSectionName [] = NewConfigFile := rfl
    rw [hnew] at hfirst
    rw [List.foldl_cons, hfirst, keys_after_first [] p rest hk]
    refine ⟨_, rfl, Or.inr ⟨by simp, rfl, _, defaultOnly_GetALLKeys _ _, ?_⟩⟩
    intro k
    exact foldl_addKey_empty_get _ k

theorem not_recognized_of_check (sl : List GoString) (lines : List GoString)
    (h : (lines.filterMap parseLine).all (fun q => !contains sl q.name) = true) :
    ∀ l ∈ lines, ∀ q, parseLine l = some q → contains sl q.name = false := by
  intro l hl q hq
  rw [List.all_eq_true] at h
  have := h q (List.mem_filterMap.mpr ⟨l, hl, hq⟩)
  simpa using this

/-- C7, on a store that recognizes `listen`: a `listen` header followed by two
`server` lines and a `mode` line. -/
theorem key_routing_after_header_witness :
    ∃ c1 table,
      (NewConfigFile.SetSectionName ["listen".toList]).LoadStrings
          ["listen web".toList, "server s1".toList, "server s2".toList, "mode tcp".toList]
        = some c1 ∧
      c1.GetKeysIndex "listen".toList 0 = some (.ok table) ∧
      GoMap.get table "server".toList
        = some [{ name := "server".toList, avals := ["s1".toList], kwvals := [],
                  keycomment := [] },
                { name := "server".toList, avals := ["s2".toList], kwvals := [],
                  keycomment := [] }] := by
  obtain ⟨c1, table, h1, _, h3, h4, _⟩ :=
    key_routing_after_header (NewConfigFile.SetSectionName ["listen".toList])
      (WF_SetSectionName _ _ WF_new) "listen web".toList
      { name := "listen".toList, avals := ["web".toList], kwvals := [], keycomment := [] }
      ["server s1".toList, "server s2".toList, "mode tcp".toList]
      (by rfl) (by rfl) (not_recognized_of_check _ _ (by rfl))
  refine ⟨c1, table, h1, h3, ?_⟩
  rw [h4]
  rfl

/-- C8, with `listen` recognized and two `listen` lines around a key line. -/
theorem section_instancing_witness :
    ∃ c1 recs tabs,
      (NewConfigFile.SetSectionName ["listen".toList]).LoadStrings
          ["listen a".toList, "x 1".toList, "listen b".toList] = some c1 ∧
      c1.GetSection "listen".toList = .ok recs ∧
      c1.GetALLKeys "listen".toList = .ok tabs ∧
      recs.length = 2 ∧ tabs.length = 2 := by
  obtain ⟨c1, recs, tabs, h1, h2, h3, h4, h5, _⟩ :=
    section_instancing ["listen".toList]
      ["listen a".toList, "x 1".toList, "listen b".toList] "listen".toList
      (by decide) (by decide)
      ⟨"listen a".toList, by decide,
        { name := "listen".toList, avals := ["a".toList], kwvals := [], keycomment := [] },
        by rfl, by rfl⟩
  exact ⟨c1, recs, tabs, h1, h2, h3, h4.trans (by rfl), h5.trans (by rfl)⟩

theorem keys_of_check (names lines : List GoString)
    (h : (lines.filterMap parseLine).all
      (fun q => !contains names q.name && decide (q.name ≠ DEFAULT_SECTION)) = true) :
    ∀ l ∈ lines, ∀ q, parseLine l = some q →
      contains names q.name = false ∧ q.name ≠ DEFAULT_SECTION := by
  intro l hl q hq
  rw [List.all_eq_true] at h
  have := h q (List.mem_filterMap.mpr ⟨l, hl, hq⟩)
  simpa using this

/-- C9 as amended, with `listen` recognized: the line `maxconn 5` and then
`daemon`. -/
theorem default_section_fallback_witness :
    ∃ c1 t c2 t2,
      (NewConfigFile.SetSectionName ["listen".toList]).LoadString "maxconn 5".toList
        = some c1 ∧
      c1.GetKeysIndex DEFAULT_SECTION 0 = some (.ok t) ∧
      GoMap.get t "maxconn".toList
        = some [{ name := "maxconn".toList, avals := ["5".toList], kwvals := [],
                  keycomment := [] }] ∧
      c1.LoadStrings ["daemon".toList] = some c2 ∧
      c2.GetALLKeys DEFAULT_SECTION = .ok [t2] ∧
      GoMap.get t2 "daemon".toList
        = some [{ name := "daemon".toList, avals := [], kwvals := [], keycomment := [] }] := by
  obtain ⟨c1, t, c2, t2, h1, _, _, _, h5, h6, h7, _, h9, h10⟩ :=
    default_section_fallback ["listen".toList] "maxconn 5".toList
      { name := "maxconn".toList, avals := ["5".toList], kwvals := [], keycomment := [] }
      ["daemon".toList] (by rfl) (by rfl) (keys_of_check _ _ (by rfl))
  refine ⟨c1, t, c2, t2, h1, h5, ?_, h7, h9, ?_⟩
  · rw [h6]
    rfl
  · rw [h10]
    rfl

/-- C10 as amended, on the lines `a 1`, a blank line and `b 2`. -/
theorem no_header_without_section_names_witness :
    ∃ c1, NewConfigFile.LoadStrings ["a 1".toList, " ".toList, "b 2".toList] = some c1 ∧
      c1.GetALLSection
        = [(DEFAULT_SECTION,
            [{ name := DEFAULT_SECTION, avals := [], kwvals := [], keycomment := [] }])] ∧
      ∃ t, c1.GetALLKeys DEFAULT_SECTION = .ok [t] ∧
        GoMap.get t "b".toList
          = some [{ name := "b".toList, avals := ["2".toList], kwvals := [],
                    keycomment := [] }] := by
  obtain ⟨c1, h1, h2⟩ :=
    no_header_without_section_names ["a 1".toList, " ".toList, "b 2".toList] (by decide)
  rcases h2 with ⟨h2, _⟩ | ⟨_, h3, t, h4, h5⟩
  · exact absurd h2 (by decide)
  · refine ⟨c1, h1, h3, t, h4, ?_⟩
    rw [h5]
    rfl

/-! ## Lemmas: queries on reachable stores -/

theorem headersOf_append (n : GoString) (o1 o2 : List (GoString × Property)) :
    headersOf n (o1 ++ o2) = headersOf n o1 ++ headersOf n o2 := by
  simp [headersOf]

theorem headersOf_single (n s : GoString) (p : Property) :
    headersOf n [(s, p)] = if s = n then [p] else [] := by
  by_cases h : s = n <;> simp [headersOf, h]

theorem headersOf_eq_nil_iff (n : GoString) (o : List (GoString × Property)) :
    headersOf n o = [] ↔ ∀ e ∈ o, e.1 ≠ n := by
  induction o with
  | nil => simp [headersOf]
  | cons e rest ih =>
    have hc : headersOf n (e :: rest) = headersOf n [e] ++ headersOf n rest :=
      headersOf_append n [e] rest
    obtain ⟨s, p⟩ := e
    rw [hc, headersOf_single, List.append_eq_nil, ih]
    constructor
    · rintro ⟨h1, h2⟩ e he
      rcases List.mem_cons.mp he with rfl | he
      · intro hs
        rw [if_pos hs] at h1
        cases h1
      · exact h2 e he
    · intro h
      refine ⟨?_, fun e he => h e (List.mem_cons_of_mem _ he)⟩
      have hs : ¬ s = n := h (s, p) (List.mem_cons_self _ _)
      rw [if_neg hs]

theorem entryOf_getD (rs : List Property) : (entryOf rs).getD [] = rs := by
  unfold entryOf
  split
  · next h => simp [h]
  · rfl

theorem entryOf_append_single (rs : List Property) (p : Property) :
    entryOf (rs ++ [p]) = some (rs ++ [p]) := by
  simp [entryOf]

theorem sectionInv_asv (c : ConfigFile) (hwf : c.WF) (o : List (GoString × Property))
    (s : GoString) (p : Property) (n : GoString) (h : sectionInv c o n) :
    sectionInv (c.AddSectionValue s p) (o ++ [(s, p)]) n := by
  obtain ⟨h1, refs, h2, h3⟩ := h
  unfold sectionInv
  rw [asv_sectionData_get, asv_data_get_of_WF c hwf, headersOf_append, headersOf_single]
  by_cases e : s = n
  · subst e
    simp only [if_true]
    refine ⟨?_, ?_⟩
    · rw [entryOf_append_single, GoMap.getSlice, h1, entryOf_getD]
    · refine ⟨GoMap.getSlice c.data s ++ [c.heap.length], by simp, ?_⟩
      by_cases hh : headersOf s o = []
      · simp [GoMap.getSlice, h2, hh]
      · simp only [hh, if_false] at h2
        simp [GoMap.getSlice, h2, h3]
  · simp only [e, if_false, List.append_nil]
    exact ⟨h1, refs, h2, h3⟩

theorem sectionInv_of_same (c c1 : ConfigFile) (o : List (GoString × Property)) (n : GoString)
    (h : sectionInv c o n) (hs : c1.sectionData = c.sectionData) (hd : c1.data = c.data) :
    sectionInv c1 o n := by
  unfold sectionInv at h ⊢
  rw [hs, hd]
  exact h

theorem sectionInv_load (c : ConfigFile) (hwf : c.WF) (o : List (GoString × Property))
    (line : GoString) (c1 : ConfigFile) (hl : c.LoadString line = some c1) (n : GoString)
    (h : sectionInv c o n) : sectionInv c1 (o ++ opensOf c line) n := by
  rw [LoadString_eq] at hl
  simp only [Option.some.injEq] at hl
  subst hl
  unfold opensOf
  cases hp : parseLine line with
  | none => simpa using h
  | some p =>
    simp only []
    by_cases hrec : contains c.sectionList p.name = true
    · rw [place_of_header c p hrec]
      simp only [hrec, if_true]
      exact sectionInv_asv c hwf o _ p n h
    · have hrec2 : contains c.sectionList p.name = false := by simpa using hrec
      rw [place_of_key c p hrec2]
      simp only [hrec2, Bool.false_eq_true, if_false]
      cases hc : c.CurrentKeys with
      | none =>
        rw [SetKey_of_none c p hc]
        simp only [if_true]
        refine sectionInv_of_same _ _ _ n
          (sectionInv_asv (c.SetSectionName [DEFAULT_SECTION])
            (WF_SetSectionName c _ hwf) o DEFAULT_SECTION (newProperty DEFAULT_SECTION) n
            (sectionInv_of_same c _ o n h rfl rfl)) rfl rfl
      | some r =>
        rw [SetKey_of_some c p r hc]
        simp only [reduceCtorEq, if_false, List.append_nil]
        exact sectionInv_of_same c _ o n h rfl rfl

theorem Reach_WF (c : ConfigFile) (o : List (GoString × Property)) (h : Reach c o) : c.WF := by
  induction h with
  | new => exact WF_new
  | setNames c o l _ ih => exact WF_SetSectionName c l ih
  | load c o line c1 _ hl ih => exact WF_LoadString c c1 line ih hl

theorem Reach_sectionInv (c : ConfigFile) (o : List (GoString × Property)) (h : Reach c o)
    (n : GoString) : sectionInv c o n := by
  induction h with
  | new => exact ⟨rfl, [], rfl, rfl⟩
  | setNames c o l _ ih => exact sectionInv_of_same c _ o n ih rfl rfl
  | load c o line c1 hr hl ih => exact sectionInv_load c (Reach_WF c o hr) o line c1 hl n ih

/-! ## The queries: properties -/

/-- C11, on the store with one `listen` instance: at index 1, the number of
instances, `GetSectionIndex` and `GetKeysIndex` pass the guard
`len(s) < index` and panic on the slice index; at index 99 they return
"index out of range" and at index 0 the header record and the key table. -/
theorem GetIndex_at_length_panics :
    ((NewConfigFile.SetSectionName ["listen".toList]).LoadStrings
        ["listen a".toList, "k 1".toList]).map
      (fun c => (c.GetSectionIndex "listen".toList 1, c.GetKeysIndex "listen".toList 1,
        c.GetSectionIndex "listen".toList 99, c.GetKeysIndex "listen".toList 99,
        c.GetSectionIndex "listen".toList 0, c.GetKeysIndex "listen".toList 0))
      = some (none, none,
          some (.error .indexOutOfRange), some (.error .indexOutOfRange),
          some (.ok { name := "listen".toList, avals := ["a".toList], kwvals := [],
                      keycomment := [] }),
          some (.ok [("k".toList,
            [{ name := "k".toList, avals := ["1".toList], kwvals := [],
               keycomment := [] }])])) := by
  rfl

/-! ## Lemmas: files -/

theorem asv_withFileNames (c : ConfigFile) (x : List GoString) (s : GoString) (p : Property) :
    (c.withFileNames x).AddSectionValue s p = (c.AddSectionValue s p).withFileNames x := by
  unfold ConfigFile.AddSectionValue ConfigFile.withFileNames
  cases GoMap.get c.sectionData s <;> rfl

theorem SetKey_withFileNames (c : ConfigFile) (x : List GoString) (p : Property) :
    (c.withFileNames x).SetKey p = (c.SetKey p).withFileNames x := by
  cases hc : c.CurrentKeys with
  | none =>
    rw [SetKey_of_none c p hc, SetKey_of_none (c.withFileNames x) p hc]
    have : (c.withFileNames x).SetSectionName [DEFAULT_SECTION]
        = (c.SetSectionName [DEFAULT_SECTION]).withFileNames x := rfl
    rw [this, asv_withFileNames]
    rfl
  | some r =>
    rw [SetKey_of_some c p r hc, SetKey_of_some (c.withFileNames x) p r hc]
    rfl

theorem place_withFileNames (c : ConfigFile) (x : List GoString) (p : Property) :
    (c.withFileNames x).place p = (c.place p).withFileNames x := by
  unfold ConfigFile.place
  have : (c.withFileNames x).sectionList = c.sectionList := rfl
  rw [this]
  split
  · exact asv_withFileNames c x _ p
  · exact SetKey_withFileNames c x p

theorem foldl_place_withFileNames (recs : List Property) (x : List GoString) :
    ∀ c : ConfigFile, recs.foldl ConfigFile.place (c.withFileNames x)
      = (recs.foldl ConfigFile.place c).withFileNames x := by
  induction recs with
  | nil => intro c; rfl
  | cons p rest ih =>
    intro c
    rw [List.foldl_cons, place_withFileNames, ih, List.foldl_cons]

theorem LoadStrings_withFileNames (c : ConfigFile) (x : List GoString) (lines : List GoString) :
    (c.withFileNames x).LoadStrings lines
      = (c.LoadStrings lines).map (fun c1 => c1.withFileNames x) := by
  rw [LoadStrings_eq, LoadStrings_eq, foldl_place_withFileNames]
  rfl

theorem LoadStrings_append (c : ConfigFile) (l1 l2 : List GoString) :
    c.LoadStrings (l1 ++ l2) = (c.LoadStrings l1).bind (fun c1 => c1.LoadStrings l2) := by
  rw [LoadStrings_eq, LoadStrings_eq, Option.some_bind, LoadStrings_eq,
    List.filterMap_append, List.foldl_append]

/-- The loop of `LoadFile` over files that are all read to the end, followed
by `rest`. -/
theorem loadFiles_append (fs : FileSystem) (pre rest : List GoString)
    (h : ∀ f ∈ pre, readsToEnd fs f = true) :
    ∀ c : ConfigFile, c.loadFiles fs (pre ++ rest)
      = (c.LoadStrings (linesOf fs pre)).bind (fun c1 => c1.loadFiles fs rest) := by
  induction pre with
  | nil => intro c; rfl
  | cons f tl ih =>
    intro c
    have hf := h f (List.mem_cons_self _ _)
    unfold readsToEnd at hf
    cases hfs : fs f with
    | none => simp [hfs] at hf
    | some file =>
      simp only [hfs, Bool.not_eq_true'] at hf
      have ih2 := ih (fun g hg => h g (List.mem_cons_of_mem _ hg))
      simp only [List.cons_append, ConfigFile.loadFiles, hfs, linesOf, fileLines, hf]
      rw [LoadStrings_append]
      cases c.LoadStrings file.lines with
      | none => rfl
      | some c1 => simp [ih2 c1]

/-! ## Files: properties -/

/-- C13, with `listen` recognized, file `a` holding `listen x` and file `b`
holding `listen y`, both read to the end: `LoadFile(a)` followed by
`LoadFile(b)` loads `a` a second time (the loop ranges over all recorded file
names) and leaves three `listen` instances, where the single call
`LoadFile(a, b)` leaves two. -/
theorem LoadFile_again_reloads_earlier_files :
    ((((NewConfigFile.SetSectionName ["listen".toList]).LoadFile
        (fun p => if p = "a".toList then some ⟨["listen x".toList], false⟩
          else if p = "b".toList then some ⟨["listen y".toList], false⟩ else none)
        ["a".toList]).bind LoadResult.returned?).bind
      (fun r => (r.2.LoadFile
        (fun p => if p = "a".toList then some ⟨["listen x".toList], false⟩
          else if p = "b".toList then some ⟨["listen y".toList], false⟩ else none)
        ["b".toList]).bind LoadResult.returned?)).map
        (fun r => (r.1, r.2.GetSection "listen".toList))
      = some (none, .ok
          [{ name := "listen".toList, avals := ["x".toList], kwvals := [], keycomment := [] },
           { name := "listen".toList, avals := ["x".toList], kwvals := [], keycomment := [] },
           { name := "listen".toList, avals := ["y".toList], kwvals := [], keycomment := [] }]) ∧
    (((NewConfigFile.SetSectionName ["listen".toList]).LoadFile
        (fun p => if p = "a".toList then some ⟨["listen x".toList], false⟩
          else if p = "b".toList then some ⟨["listen y".toList], false⟩ else none)
        ["a".toList, "b".toList]).bind LoadResult.returned?).map
        (fun r => (r.1, r.2.GetSection "listen".toList))
      = some (none, .ok
          [{ name := "listen".toList, avals := ["x".toList], kwvals := [], keycomment := [] },
           { name := "listen".toList, avals := ["y".toList], kwvals := [],
             keycomment := [] }]) := by
  constructor <;> rfl

/-- C14, with `listen` recognized and file `a` holding `listen x` and read to
its end: after `LoadFile(a)`, `GetSection("listen")` returns the header;
`Reload` then returns no error, but the new store starts without recognized
names, so the line became a key of the default section: the recognized names
are `DEFAULT` alone and `GetSection("listen")` fails. -/
theorem Reload_forgets_section_names :
    (((NewConfigFile.SetSectionName ["listen".toList]).LoadFile
        (fun p => if p = "a".toList then some ⟨["listen x".toList], false⟩ else none)
        ["a".toList]).bind LoadResult.returned?).map
        (fun r => (r.1, r.2.GetSection "listen".toList))
      = some (none, .ok
          [{ name := "listen".toList, avals := ["x".toList], kwvals := [],
             keycomment := [] }]) ∧
    ((((NewConfigFile.SetSectionName ["listen".toList]).LoadFile
        (fun p => if p = "a".toList then some ⟨["listen x".toList], false⟩ else none)
        ["a".toList]).bind LoadResult.returned?).bind
      (fun r => (r.2.Reload
        (fun p => if p = "a".toList then some ⟨["listen x".toList], false⟩
          else none)).bind LoadResult.returned?)).map
        (fun r => (r.1, r.2.sectionList, r.2.GetSection "listen".toList,
          r.2.GetKeysIndex DEFAULT_SECTION 0))
      = some (none, [DEFAULT_SECTION], .error .sectionNotFound,
          some (.ok [("listen".toList,
            [{ name := "listen".toList, avals := ["x".toList], kwvals := [],
               keycomment := [] }])])) := by
  constructor <;> rfl

/-- C15 fails on a store that recorded the paths `adir` and `gone`, where
`adir` opens but cannot be read and `gone` does not open: `Reload` does not
return the open error, the scanner error of `adir` ends the process. -/
theorem Reload_read_error_is_fatal :
    (fun p => if p = "adir".toList then some ⟨[], true⟩ else none : FileSystem)
        "gone".toList = none ∧
    (NewConfigFile.withFileNames ["adir".toList, "gone".toList]).Reload
        (fun p => if p = "adir".toList then some ⟨[], true⟩ else none)
      = some .fatal := by
  constructor <;> rfl

/-- C15, as the code has it: when a recorded path `bad` cannot be opened and
every recorded path before it is read to the end, `Reload` returns the open
error of `bad` and the store, every field of it, is the one before the call.
(A path that opens but fails while it is read ends the process.) -/
theorem Reload_failure_keeps_store (fs : FileSystem) (c : ConfigFile)
    (pre : List GoString) (bad : GoString) (post : List GoString)
    (hfiles : c.fileNames = pre ++ bad :: post)
    (hpre : ∀ f ∈ pre, readsToEnd fs f = true) (hbad : fs bad = none) :
    c.Reload fs = some (.returned (some (.openFailed bad)) c) := by
  have hload : NewConfigFile.LoadFile fs c.fileNames
      = (NewConfigFile.withFileNames c.fileNames).loadFiles fs c.fileNames := rfl
  unfold ConfigFile.Reload
  rw [hload, hfiles, loadFiles_append fs pre (bad :: post) hpre, LoadStrings_eq]
  simp [ConfigFile.loadFiles, hbad]

/-- C15 as amended, on a store that recorded the file `a`, which is read to
the end, and the file `gone`, which no longer opens. -/
theorem Reload_failure_keeps_store_witness :
    (NewConfigFile.withFileNames ["a".toList, "gone".toList]).Reload
        (fun p => if p = "a".toList then some ⟨["k 1".toList], false⟩ else none)
      = some (.returned (some (.openFailed "gone".toList))
          (NewConfigFile.withFileNames ["a".toList, "gone".toList])) :=
  Reload_failure_keeps_store _ (NewConfigFile.withFileNames ["a".toList, "gone".toList])
    ["a".toList] "gone".toList [] rfl (by decide) (by rfl)

/-- C16 fails on a fresh store and the paths `adir`, `gone`, where `adir`
opens but cannot be read and `gone`, at position 1, is the first path that
does not open: `LoadFile` does not return the open error, the scanner error
of `adir` ends the process. -/
theorem LoadFile_read_error_is_fatal :
    (fun p => if p = "adir".toList then some ⟨[], true⟩ else none : FileSystem)
        "adir".toList = some ⟨[], true⟩ ∧
    (fun p => if p = "adir".toList then some ⟨[], true⟩ else none : FileSystem)
        "gone".toList = none ∧
    NewConfigFile.LoadFile
        (fun p => if p = "adir".toList then some ⟨[], true⟩ else none)
        ["adir".toList, "gone".toList]
      = some .fatal := by
  refine ⟨by rfl, by rfl, by rfl⟩

/-- C16, as the code has it: on a fresh store, when the files `pre` are read
to the end and the next one, `bad`, does not open, `LoadFile(pre, bad, post)`
returns the open error of `bad`, and the store is the one obtained by loading
the lines of `pre` in order, with the file names recorded: nothing of `post`
is loaded and nothing is rolled back.  (A path that opens but fails while it
is read ends the process.) -/
theorem LoadFile_stops_at_first_unopenable (fs : FileSystem) (names pre : List GoString)
    (bad : GoString) (post : List GoString)
    (hpre : ∀ f ∈ pre, readsToEnd fs f = true) (hbad : fs bad = none) :
    ∃ c1, (NewConfigFile.SetSectionName names).LoadStrings (linesOf fs pre) = some c1 ∧
      (NewConfigFile.SetSectionName names).LoadFile fs (pre ++ bad :: post)
        = some (.returned (some (.openFailed bad))
            (c1.withFileNames (pre ++ bad :: post))) := by
  refine ⟨_, LoadStrings_eq _ _, ?_⟩
  have hload : (NewConfigFile.SetSectionName names).LoadFile fs (pre ++ bad :: post)
      = ((NewConfigFile.SetSectionName names).withFileNames (pre ++ bad :: post)).loadFiles fs
          (pre ++ bad :: post) := rfl
  rw [hload, loadFiles_append fs pre (bad :: post) hpre, LoadStrings_withFileNames,
    LoadStrings_eq]
  simp [ConfigFile.loadFiles, hbad]

/-- C16 as amended, with file `a` holding `k 1`, file `b` missing and file `c`
holding `k 2`. -/
theorem LoadFile_stops_at_first_unopenable_witness :
    ∃ c1, (NewConfigFile.SetSectionName []).LoadStrings
        (linesOf (fun p => if p = "a".toList then some ⟨["k 1".toList], false⟩
          else if p = "c".toList then some ⟨["k 2".toList], false⟩ else none) ["a".toList])
        = some c1 ∧
      (NewConfigFile.SetSectionName []).LoadFile
        (fun p => if p = "a".toList then some ⟨["k 1".toList], false⟩
          else if p = "c".toList then some ⟨["k 2".toList], false⟩ else none)
        (["a".toList] ++ "b".toList :: ["c".toList])
        = some (.returned (some (.openFailed "b".toList))
            (c1.withFileNames (["a".toList] ++ "b".toList :: ["c".toList]))) :=
  LoadFile_stops_at_first_unopenable _ [] ["a".toList] "b".toList ["c".toList]
    (by decide) (by rfl)

/-! ## Lemmas: names of the stored records -/

theorem fieldsAux_nonempty (s : GoString) :
    ∀ cur : GoString, ∀ f ∈ fieldsAux s cur, f ≠ [] := by
  induction s with
  | nil =>
    intro cur f hf
    by_cases hc : cur = []
    · simp [fieldsAux, hc] at hf
    · simp only [fieldsAux, hc, if_false, List.mem_singleton] at hf
      rw [hf]
      exact hc
  | cons c rest ih =>
    intro cur f hf
    cases hs : isSpace c
    · simp only [fieldsAux, hs, Bool.false_eq_true, if_false] at hf
      exact ih _ f hf
    · simp only [fieldsAux, hs, if_true] at hf
      by_cases hc : cur = []
      · simp only [hc, if_true] at hf
        exact ih _ f hf
      · simp only [hc, if_false, List.mem_cons] at hf
        rcases hf with rfl | hf
        · exact hc
        · exact ih _ f hf

theorem parseLine_name_ne_nil (line : GoString) (p : Property)
    (h : parseLine line = some p) : p.name ≠ [] := by
  unfold parseLine at h
  rw [Load_eq] at h
  cases hf : Fields (contentOf line) with
  | nil => simp [hf] at h
  | cons f fs =>
    simp only [hf, Option.some.injEq] at h
    subst h
    exact fieldsAux_nonempty (contentOf line) [] f (by
      have : f ∈ Fields (contentOf line) := by rw [hf]; exact List.mem_cons_self _ _
      exact this)

theorem DEFAULT_SECTION_ne_nil : DEFAULT_SECTION ≠ [] := by decide

theorem tableNamed_nil : tableNamed [] := by
  intro k recs h
  simp [GoMap.get] at h

theorem tableNamed_addKey (t : KeyTable) (p : Property) (ht : tableNamed t)
    (hp : p.name ≠ []) : tableNamed (addKey t p) := by
  intro k recs h q hq
  rw [addKey_get] at h
  by_cases e : p.name = k
  · subst e
    simp only [if_true, Option.some.injEq] at h
    subst h
    rcases List.mem_append.mp hq with hq | hq
    · cases hg : GoMap.get t p.name with
      | none => simp [GoMap.getSlice, hg] at hq
      | some v =>
        simp only [GoMap.getSlice, hg, Option.getD_some] at hq
        exact ht p.name v hg q hq
    · simp only [List.mem_singleton] at hq
      subst hq
      exact ⟨rfl, hp⟩
  · simp only [e, if_false] at h
    exact ht k recs h q hq

theorem tableNamed_deref (c : ConfigFile) (h : nameInv c) (r : Nat) :
    tableNamed (c.deref r) := by
  unfold ConfigFile.deref
  by_cases hr : r < c.heap.length
  · have : c.heap.getD r [] = c.heap.get ⟨r, hr⟩ := by
      simp [List.getD_eq_getElem?_getD, List.getElem?_eq_getElem hr]
    rw [this]
    exact h.2 _ (List.get_mem _ _ _)
  · rw [List.getD_eq_default _ _ (by omega)]
    exact tableNamed_nil

theorem nameInv_asv (c : ConfigFile) (s : GoString) (p : Property) (h : nameInv c)
    (hp : p.name ≠ []) : nameInv (c.AddSectionValue s p) := by
  constructor
  · intro n recs hg q hq
    rw [asv_sectionData_get] at hg
    by_cases e : s = n
    · simp only [e, if_true, Option.some.injEq] at hg
      subst hg
      rcases List.mem_append.mp hq with hq | hq
      · cases hs : GoMap.get c.sectionData n with
        | none => simp [GoMap.getSlice, hs] at hq
        | some v =>
          simp only [GoMap.getSlice, hs, Option.getD_some] at hq
          exact h.1 n v hs q hq
      · simp only [List.mem_singleton] at hq
        subst hq
        exact hp
    · simp only [e, if_false] at hg
      exact h.1 n recs hg q hq
  · intro t ht
    rw [asv_heap] at ht
    rcases List.mem_append.mp ht with ht | ht
    · exact h.2 t ht
    · simp only [List.mem_singleton] at ht
      subst ht
      exact tableNamed_nil

theorem nameInv_SetKey (c : ConfigFile) (p : Property) (h : nameInv c) (hp : p.name ≠ []) :
    nameInv (c.SetKey p) := by
  cases hc : c.CurrentKeys with
  | none =>
    rw [SetKey_of_none c p hc]
    have h2 : nameInv ((c.SetSectionName [DEFAULT_SECTION]).AddSectionValue DEFAULT_SECTION
        (newProperty DEFAULT_SECTION)) :=
      nameInv_asv _ _ _ h DEFAULT_SECTION_ne_nil
    refine ⟨h2.1, ?_⟩
    intro t ht
    rcases List.mem_append.mp ht with ht | ht
    · exact h.2 t ht
    · simp only [List.mem_singleton] at ht
      subst ht
      exact tableNamed_addKey [] p tableNamed_nil hp
  | some r =>
    rw [SetKey_of_some c p r hc]
    refine ⟨h.1, ?_⟩
    intro t ht
    rcases List.mem_or_eq_of_mem_set ht with ht | ht
    · exact h.2 t ht
    · subst ht
      exact tableNamed_addKey _ p (tableNamed_deref c h r) hp

theorem Reach_nameInv (c : ConfigFile) (o : List (GoString × Property)) (h : Reach c o) :
    nameInv c := by
  induction h with
  | new =>
    constructor
    · intro n recs hg
      simp [NewConfigFile, GoMap.get] at hg
    · intro t ht
      simp [NewConfigFile] at ht
  | setNames c o l _ ih => exact ih
  | load c o line c1 _ hl ih =>
    rw [LoadString_eq] at hl
    simp only [Option.some.injEq] at hl
    subst hl
    cases hp : parseLine line with
    | none => exact ih
    | some p =>
      simp only []
      unfold ConfigFile.place
      split
      · exact nameInv_asv c _ p ih (parseLine_name_ne_nil line p hp)
      · exact nameInv_SetKey c p ih (parseLine_name_ne_nil line p hp)

/-- C17: in a store built from an empty one by `SetSectionName` and
`LoadString`, every record that `GetSection` returns has a non-empty name, and
in every key table that `GetALLKeys` returns every record is filed under the
key equal to its name, which is not empty. -/
theorem stored_records_have_names (c : ConfigFile) (o : List (GoString × Property))
    (h : Reach c o) :
    (∀ n recs, c.GetSection n = .ok recs → ∀ p ∈ recs, p.name ≠ []) ∧
    (∀ n tabs, c.GetALLKeys n = .ok tabs → ∀ t ∈ tabs, ∀ k recs,
      GoMap.get t k = some recs → ∀ p ∈ recs, p.name = k ∧ p.name ≠ []) := by
  have hinv := Reach_nameInv c o h
  constructor
  · intro n recs hg p hp
    unfold ConfigFile.GetSection at hg
    cases hs : GoMap.get c.sectionData n with
    | none => simp [hs] at hg
    | some v =>
      simp only [hs, Except.ok.injEq] at hg
      subst hg
      exact hinv.1 n v hs p hp
  · intro n tabs hg t ht
    unfold ConfigFile.GetALLKeys at hg
    cases hd : GoMap.get c.data n with
    | none => simp [hd] at hg
    | some refs =>
      simp only [hd, Except.ok.injEq] at hg
      subst hg
      obtain ⟨r, _, rfl⟩ := List.mem_map.mp ht
      exact tableNamed_deref c hinv r

/-- C17, on the store after the line `k 1`: the default header has a name. -/
theorem stored_records_have_names_witness :
    (NewConfigFile.SetKey
        { name := "k".toList, avals := ["1".toList], kwvals := [],
          keycomment := [] }).GetSection DEFAULT_SECTION
      = .ok [newProperty DEFAULT_SECTION] ∧
    ∀ p ∈ [newProperty DEFAULT_SECTION], p.name ≠ [] :=
  ⟨by rfl,
    (stored_records_have_names _ ([] ++ opensOf NewConfigFile "k 1".toList)
      (Reach.load NewConfigFile [] "k 1".toList _ Reach.new (by rfl))).1
      DEFAULT_SECTION _ (by rfl)⟩

/-! ## Lemmas: growth of the store -/

theorem totalRecords_set (m : GoMap (List Property)) (k : GoString) (v : List Property) :
    totalRecords (GoMap.set m k v) + (GoMap.getSlice m k).length
      = totalRecords m + v.length := by
  induction m with
  | nil => simp [totalRecords, GoMap.set, GoMap.getSlice, GoMap.get]
  | cons hd tl ih =>
    obtain ⟨a, b⟩ := hd
    by_cases h : a = k
    · simp [totalRecords, GoMap.set, GoMap.getSlice, GoMap.get, h]
      omega
    · have ih2 : totalRecords (GoMap.set tl k v) + (GoMap.getSlice tl k).length
          = totalRecords tl + v.length := ih
      simp only [totalRecords, GoMap.getSlice] at ih2
      simp only [totalRecords, GoMap.set, GoMap.getSlice, GoMap.get, h, if_false,
        List.map_cons, List.sum_cons]
      omega

theorem totalRecords_append_one (m : GoMap (List Property)) (k : GoString) (p : Property) :
    totalRecords (GoMap.set m k (GoMap.getSlice m k ++ [p])) = totalRecords m + 1 := by
  have := totalRecords_set m k (GoMap.getSlice m k ++ [p])
  simp only [List.length_append, List.length_singleton] at this
  omega

theorem totalRecords_set_nil_of_none (m : GoMap (List Property)) (k : GoString)
    (h : GoMap.get m k = none) : totalRecords (GoMap.set m k []) = totalRecords m := by
  have := totalRecords_set m k []
  simp only [GoMap.getSlice, h, Option.getD_none, List.length_nil, Nat.add_zero] at this
  exact this

theorem totalRecords_asv (c : ConfigFile) (s : GoString) (p : Property) :
    totalRecords (c.AddSectionValue s p).sectionData = totalRecords c.sectionData + 1 := by
  unfold ConfigFile.AddSectionValue
  cases h : GoMap.get c.sectionData s with
  | none =>
    simp only []
    rw [totalRecords_append_one, totalRecords_set_nil_of_none _ _ h]
  | some v =>
    simp only []
    rw [totalRecords_append_one]

theorem totalRecords_addKey (t : KeyTable) (p : Property) :
    totalRecords (addKey t p) = totalRecords t + 1 := by
  unfold addKey
  cases h : GoMap.get t p.name with
  | none =>
    simp only []
    rw [totalRecords_append_one, totalRecords_set_nil_of_none _ _ h]
  | some v =>
    simp only []
    rw [totalRecords_append_one]

theorem sum_totalRecords_set (l : List KeyTable) (x : KeyTable) :
    ∀ r, r < l.length →
      ((l.set r x).map totalRecords).sum + totalRecords (l.getD r [])
        = (l.map totalRecords).sum + totalRecords x := by
  induction l with
  | nil => intro r hr; simp at hr
  | cons hd tl ih =>
    intro r hr
    cases r with
    | zero => simp; omega
    | succ r =>
      have := ih r (by simpa using hr)
      simp only [List.set_cons_succ, List.map_cons, List.sum_cons, List.getD_cons_succ]
      omega

theorem recordCount_asv (c : ConfigFile) (s : GoString) (p : Property) :
    (c.AddSectionValue s p).recordCount = c.recordCount + 1 := by
  unfold ConfigFile.recordCount
  rw [totalRecords_asv, asv_heap]
  simp [totalRecords]
  omega

theorem recordCount_SetKey_some (c : ConfigFile) (p : Property) (r : Nat)
    (h : c.CurrentKeys = some r) : (c.SetKey p).recordCount ≤ c.recordCount + 1 := by
  rw [SetKey_of_some c p r h]
  unfold ConfigFile.recordCount
  simp only []
  by_cases hr : r < c.heap.length
  · have := sum_totalRecords_set c.heap (addKey (c.deref r) p) r hr
    rw [totalRecords_addKey] at this
    unfold ConfigFile.deref at this ⊢
    omega
  · rw [List.set_eq_of_length_le (by omega)]
    omega

theorem recordCount_SetKey_none (c : ConfigFile) (p : Property) (h : c.CurrentKeys = none) :
    (c.SetKey p).recordCount = c.recordCount + 2 := by
  rw [SetKey_of_none c p h]
  unfold ConfigFile.recordCount
  simp only []
  rw [totalRecords_asv, List.map_append, List.sum_append]
  simp only [List.map_cons, List.map_nil, List.sum_cons, List.sum_nil, totalRecords_addKey]
  simp [ConfigFile.SetSectionName, totalRecords]
  omega

theorem asv_sectionData_getSlice (c : ConfigFile) (s n : GoString) (p : Property) :
    GoMap.getSlice c.sectionData n <+: GoMap.getSlice (c.AddSectionValue s p).sectionData n := by
  unfold GoMap.getSlice
  rw [asv_sectionData_get]
  by_cases e : s = n
  · subst e
    simp only [if_true, Option.getD_some]
    exact List.prefix_append _ _
  · simp only [e, if_false]
    exact List.prefix_refl _

theorem asv_data_getSlice (c : ConfigFile) (hwf : c.WF) (s n : GoString) (p : Property) :
    GoMap.getSlice c.data n <+: GoMap.getSlice (c.AddSectionValue s p).data n := by
  unfold GoMap.getSlice
  rw [asv_data_get_of_WF c hwf]
  by_cases e : s = n
  · subst e
    simp only [if_true, Option.getD_some]
    exact List.prefix_append _ _
  · simp only [e, if_false]
    exact List.prefix_refl _

theorem appendOnly_refl (c : ConfigFile) : appendOnly c c :=
  ⟨fun _ => List.prefix_refl _, fun _ => List.prefix_refl _,
    fun _ _ _ => List.prefix_refl _⟩

theorem appendOnly_asv (c : ConfigFile) (hwf : c.WF) (s : GoString) (p : Property) :
    appendOnly c (c.AddSectionValue s p) := by
  refine ⟨fun n => asv_sectionData_getSlice c s n p, fun n => asv_data_getSlice c hwf s n p, ?_⟩
  intro r hr k
  unfold ConfigFile.deref
  rw [asv_heap, getD_append_lt _ _ _ hr]

theorem appendOnly_SetKey_some (c : ConfigFile) (p : Property) (r : Nat)
    (h : c.CurrentKeys = some r) : appendOnly c (c.SetKey p) := by
  rw [SetKey_of_some c p r h]
  refine ⟨fun _ => List.prefix_refl _, fun _ => List.prefix_refl _, ?_⟩
  intro r2 hr2 k
  by_cases e : r = r2
  · subst e
    rw [deref_set_self c r _ hr2, addKey_getSlice]
    split
    · exact List.prefix_append _ _
    · exact List.prefix_refl _
  · have : ({ c with heap := c.heap.set r (addKey (c.deref r) p) } : ConfigFile).deref r2
        = c.deref r2 := by
      simp [ConfigFile.deref, List.getD_eq_getElem?_getD, List.getElem?_set, e]
    rw [this]

theorem appendOnly_SetKey_none (c : ConfigFile) (hwf : c.WF) (p : Property)
    (h : c.CurrentKeys = none) : appendOnly c (c.SetKey p) := by
  rw [SetKey_of_none c p h]
  have ha := appendOnly_asv (c.SetSectionName [DEFAULT_SECTION]) (WF_SetSectionName c _ hwf)
    DEFAULT_SECTION (newProperty DEFAULT_SECTION)
  refine ⟨ha.1, ha.2.1, ?_⟩
  intro r hr k
  have : ({ (c.SetSectionName [DEFAULT_SECTION]).AddSectionValue DEFAULT_SECTION
        (newProperty DEFAULT_SECTION) with heap := c.heap ++ [addKey [] p] } :
        ConfigFile).deref r = c.deref r := by
    unfold ConfigFile.deref
    exact getD_append_lt _ _ _ hr
  rw [this]

/-! ## Growth of the store: properties -/

/-- C18 fails on the fresh store and the line `a`: the store held no record
and holds two after `LoadString`, the header record of the default section
and the key record. -/
theorem first_key_adds_two_records :
    NewConfigFile.recordCount = 0 ∧
    (NewConfigFile.LoadString "a".toList).map
        (fun c => (c.recordCount, c.GetALLSection, c.GetALLKeys DEFAULT_SECTION))
      = some (2,
          [(DEFAULT_SECTION,
            [{ name := DEFAULT_SECTION, avals := [], kwvals := [], keycomment := [] }])],
          .ok [[("a".toList,
            [{ name := "a".toList, avals := [], kwvals := [], keycomment := [] }])]]) := by
  constructor <;> rfl

/-- C18, as the code has it: in a store that satisfies the representation
invariant, `LoadString` only appends.  Each section name's sequence of header
records is a prefix of the new one, each section name's sequence of key
tables keeps its tables at their positions, and in every table that existed
each key's sequence of records is a prefix of the new one.  At most one
record is added when a section is open, and at most two otherwise (the key
record and the header record of the default section that is opened for it). -/
theorem LoadString_appends_only (c : ConfigFile) (hwf : c.WF) (line : GoString) :
    ∃ c1, c.LoadString line = some c1 ∧
      (∀ s, GoMap.getSlice c.sectionData s <+: GoMap.getSlice c1.sectionData s) ∧
      (∀ s, GoMap.getSlice c.data s <+: GoMap.getSlice c1.data s) ∧
      (∀ r, r < c.heap.length → ∀ k,
        GoMap.getSlice (c.deref r) k <+: GoMap.getSlice (c1.deref r) k) ∧
      c1.recordCount ≤ c.recordCount + 2 ∧
      (c.CurrentKeys ≠ none → c1.recordCount ≤ c.recordCount + 1) := by
  refine ⟨_, LoadString_eq c line, ?_⟩
  cases parseLine line with
  | none =>
    obtain ⟨h1, h2, h3⟩ := appendOnly_refl c
    exact ⟨h1, h2, h3, Nat.le_add_right _ _, fun _ => Nat.le_add_right _ _⟩
  | some p =>
    simp only []
    unfold ConfigFile.place
    split
    · obtain ⟨h1, h2, h3⟩ := appendOnly_asv c hwf p.name p
      have hc := recordCount_asv c p.name p
      exact ⟨h1, h2, h3, by omega, fun _ => by omega⟩
    · cases hk : c.CurrentKeys with
      | none =>
        obtain ⟨h1, h2, h3⟩ := appendOnly_SetKey_none c hwf p hk
        have hc := recordCount_SetKey_none c p hk
        exact ⟨h1, h2, h3, by omega, fun hne => absurd rfl hne⟩
      | some r =>
        obtain ⟨h1, h2, h3⟩ := appendOnly_SetKey_some c p r hk
        have hc := recordCount_SetKey_some c p r hk
        exact ⟨h1, h2, h3, by omega, fun _ => hc⟩

/-- C18 as amended, on the store that recognizes `listen` and the line
`listen a`. -/
theorem LoadString_appends_only_witness :
    ∃ c1, (NewConfigFile.SetSectionName ["listen".toList]).LoadString "listen a".toList
        = some c1 ∧
      c1.recordCount ≤ (NewConfigFile.SetSectionName ["listen".toList]).recordCount + 2 := by
  obtain ⟨c1, h1, _, _, _, h5, _⟩ :=
    LoadString_appends_only (NewConfigFile.SetSectionName ["listen".toList])
      (WF_SetSectionName _ _ WF_new) "listen a".toList
  exact ⟨c1, h1, h5⟩

/-! ## Lemmas: the keyword map -/

theorem pairStep_valid (values : List GoString) (m : GoMap GoString) (i : Nat)
    (h0 : 0 < i) (h : i < values.length) :
    pairStep values m i
      = GoMap.set m (values.get ⟨i - 1, by omega⟩) (values.get ⟨i, h⟩) := by
  have h1 : i - 1 < values.length := by omega
  unfold pairStep
  rw [List.getElem?_eq_getElem h1, List.getElem?_eq_getElem h]
  rfl

/-- The entry of a key after the first `t` pairs from the right: it comes from
the last of these pairs that has the key. -/
theorem foldl_pairStep_get (values : List GoString) (k v : GoString) :
    ∀ t, t ≤ values.length / 2 →
      GoMap.get (List.foldl (pairStep values) []
        ((List.range t).map (fun j => values.length - 1 - 2 * j))) k = some v →
      ∃ j, j < t ∧ values[values.length - 1 - 2 * j - 1]? = some k ∧
        values[values.length - 1 - 2 * j]? = some v ∧
        ∀ j2, j2 < t → values[values.length - 1 - 2 * j2 - 1]? = some k → j2 ≤ j := by
  intro t
  induction t with
  | zero =>
    intro _ h
    simp [GoMap.get] at h
  | succ t ih =>
    intro ht h
    have h0 : 0 < values.length - 1 - 2 * t := by omega
    have hlt : values.length - 1 - 2 * t < values.length := by omega
    have h1 : values.length - 1 - 2 * t - 1 < values.length := by omega
    rw [List.range_succ, List.map_append, List.foldl_append] at h
    simp only [List.map_cons, List.map_nil, List.foldl_cons, List.foldl_nil] at h
    rw [pairStep_valid values _ _ h0 hlt, GoMap.get_set] at h
    by_cases e : values.get ⟨values.length - 1 - 2 * t - 1, h1⟩ = k
    · simp only [e, if_true, Option.some.injEq] at h
      refine ⟨t, Nat.lt_succ_self t, ?_, ?_, fun j2 hj2 _ => Nat.lt_succ_iff.mp hj2⟩
      · rw [List.getElem?_eq_getElem h1]
        exact congrArg some e
      · rw [List.getElem?_eq_getElem hlt]
        exact congrArg some h
    · simp only [e, if_false] at h
      obtain ⟨j, hj, hk, hv, hmax⟩ := ih (by omega) h
      refine ⟨j, Nat.lt_succ_of_lt hj, hk, hv, ?_⟩
      intro j2 hj2 hk2
      rcases Nat.lt_succ_iff_lt_or_eq.mp hj2 with hlt2 | heq
      · exact hmax j2 hlt2 hk2
      · subst heq
        rw [List.getElem?_eq_getElem h1] at hk2
        exact absurd (Option.some.inj hk2) e

theorem pairFromRight_get (values : List GoString) (k v : GoString)
    (h : GoMap.get (pairFromRight values) k = some v) :
    ∃ i ∈ pairIndices values.length, values[i - 1]? = some k ∧ values[i]? = some v ∧
      ∀ i2 ∈ pairIndices values.length, values[i2 - 1]? = some k → i ≤ i2 := by
  obtain ⟨j, hj, hk, hv, hmax⟩ :=
    foldl_pairStep_get values k v (values.length / 2) (Nat.le_refl _) h
  refine ⟨values.length - 1 - 2 * j, ?_, hk, hv, ?_⟩
  · unfold pairIndices
    exact List.mem_map.mpr ⟨j, List.mem_range.mpr hj, rfl⟩
  · intro i2 hi2 hk2
    unfold pairIndices at hi2
    obtain ⟨j2, hj2, rfl⟩ := List.mem_map.mp hi2
    have hj2b := List.mem_range.mp hj2
    have := hmax j2 hj2b hk2
    omega

theorem Load_fresh_true (n str : GoString) (q : Property)
    (h : (newProperty n).Load str = some (true, q)) :
    q.avals = (Fields (contentOf str)).drop 1 ∧ q.kwvals = pairFromRight q.avals := by
  rw [Load_eq] at h
  cases hf : Fields (contentOf str) with
  | nil =>
    rw [hf] at h
    simp at h
  | cons f fs =>
    rw [hf] at h
    simp only [Option.some.injEq, Prod.mk.injEq, true_and] at h
    subst h
    simp [newProperty, pairFromRight]

/-! ## The keyword map: properties -/

/-- C19: whenever `Load` succeeds on a fresh record, for every key `k` of the
keyword map, `GetValue k` is `values[i]` for the smallest paired index `i`
with `values[i-1] = k`: later assignments of the right-to-left scan overwrite
earlier ones, so the leftmost pair wins.  The line `x a 1 a 2` maps `a` to
`1`. -/
theorem keyword_map_leftmost_pair_wins :
    (∀ (n str : GoString) (q : Property), (newProperty n).Load str = some (true, q) →
      ∀ k v, GoMap.get q.kwvals k = some v →
        q.GetValue k = v ∧
        ∃ i ∈ pairIndices q.avals.length, q.avals[i - 1]? = some k ∧
          q.avals[i]? = some v ∧
          ∀ i2 ∈ pairIndices q.avals.length, q.avals[i2 - 1]? = some k → i ≤ i2) ∧
    ((newProperty []).Load "x a 1 a 2".toList).map (fun r => r.2.GetValue "a".toList)
      = some "1".toList := by
  refine ⟨?_, by rfl⟩
  intro n str q h k v hk
  obtain ⟨_, hkw⟩ := Load_fresh_true n str q h
  refine ⟨by simp [Property.GetValue, Property.GetAllMapValue, hk], ?_⟩
  rw [hkw] at hk
  exact pairFromRight_get q.avals k v hk

/-- C19, at the line `x a 1 a 2`. -/
theorem keyword_map_leftmost_pair_wins_witness :
    (newProperty []).Load "x a 1 a 2".toList
        = some (true, { name := "x".toList,
                        avals := ["a".toList, "1".toList, "a".toList, "2".toList],
                        kwvals := [("a".toList, "1".toList)], keycomment := [] }) ∧
    ∃ i ∈ pairIndices 4,
      ["a".toList, "1".toList, "a".toList, "2".toList][i - 1]? = some "a".toList ∧
      ["a".toList, "1".toList, "a".toList, "2".toList][i]? = some "1".toList ∧
      ∀ i2 ∈ pairIndices 4,
        ["a".toList, "1".toList, "a".toList, "2".toList][i2 - 1]? = some "a".toList →
        i ≤ i2 :=
  ⟨by rfl,
    (keyword_map_leftmost_pair_wins.1 [] "x a 1 a 2".toList
      { name := "x".toList, avals := ["a".toList, "1".toList, "a".toList, "2".toList],
        kwvals := [("a".toList, "1".toList)], keycomment := [] } (by rfl)
      "a".toList "1".toList (by rfl)).2⟩

theorem kwLoopTrace_eq :
    ∀ i : Nat, kwLoopTrace i = (List.range ((i + 1) / 2)).map (fun j => i - 2 * j)
  | 0 => by simp [kwLoopTrace]
  | 1 => by simp [kwLoopTrace, List.range_succ]
  | i + 2 => by
    have hr : (i + 2 + 1) / 2 = (i + 1) / 2 + 1 := by omega
    rw [kwLoopTrace, kwLoopTrace_eq i, hr, List.range_succ_eq_map]
    simp only [List.map_cons, List.map_map, Nat.mul_zero, Nat.sub_zero]
    congr 1
    apply List.map_congr_left
    intro j _
    simp only [Function.comp, Nat.succ_eq_add_one]
    omega

theorem kwLoopTrace_length (i : Nat) : (kwLoopTrace i).length = (i + 1) / 2 := by
  rw [kwLoopTrace_eq]
  simp

theorem kwLoopTrace_bounds (i x : Nat) (h : x ∈ kwLoopTrace i) : 1 ≤ x ∧ x ≤ i := by
  rw [kwLoopTrace_eq] at h
  obtain ⟨j, hj, rfl⟩ := List.mem_map.mp h
  have := List.mem_range.mp hj
  omega

/-! ## Lemmas: the instances of a built store -/

theorem addKeyToLast_length (log : List Instance) (p : Property) :
    (addKeyToLast log p).length = log.length := by
  induction log with
  | nil => rfl
  | cons inst rest ih =>
    cases rest with
    | nil => rfl
    | cons next rest2 =>
      simp only [addKeyToLast, List.length_cons] at ih ⊢
      rw [ih]

theorem addKeyToLast_map_pairOf (log : List Instance) (p : Property) :
    (addKeyToLast log p).map pairOf = log.map pairOf := by
  induction log with
  | nil => rfl
  | cons inst rest ih =>
    cases rest with
    | nil => rfl
    | cons next rest2 =>
      simp only [addKeyToLast, List.map_cons] at ih ⊢
      rw [ih]

theorem refsFrom_addKeyToLast (n : GoString) (log : List Instance) (p : Property) :
    ∀ s, refsFrom s n (addKeyToLast log p) = refsFrom s n log := by
  induction log with
  | nil => intro s; rfl
  | cons inst rest ih =>
    intro s
    cases rest with
    | nil => rfl
    | cons next rest2 =>
      have := ih (s + 1)
      simp only [addKeyToLast] at this ⊢
      simp only [refsFrom] at this ⊢
      rw [this]

theorem addKeyToLast_getElem? (log : List Instance) (p : Property) :
    ∀ i inst1, (addKeyToLast log p)[i]? = some inst1 →
      (i + 1 ≠ log.length ∧ log[i]? = some inst1) ∨
      (i + 1 = log.length ∧ ∃ inst, log[i]? = some inst ∧
        inst1.keys = inst.keys ++ [p]) := by
  induction log with
  | nil =>
    intro i inst1 h
    simp [addKeyToLast] at h
  | cons inst rest ih =>
    intro i inst1 h
    cases rest with
    | nil =>
      cases i with
      | zero =>
        simp only [addKeyToLast, List.getElem?_cons_zero, Option.some.injEq] at h
        right
        exact ⟨rfl, inst, rfl, by rw [← h]⟩
      | succ i => simp [addKeyToLast] at h
    | cons next rest2 =>
      cases i with
      | zero =>
        simp only [addKeyToLast, List.getElem?_cons_zero, Option.some.injEq] at h
        left
        exact ⟨by simp, by simp [h]⟩
      | succ i =>
        simp only [addKeyToLast, List.getElem?_cons_succ] at h
        rcases ih i inst1 h with ⟨h1, h2⟩ | ⟨h1, inst0, h2, h3⟩
        · left
          refine ⟨?_, by simpa using h2⟩
          simp only [List.length_cons] at h1 ⊢
          omega
        · right
          refine ⟨?_, inst0, by simpa using h2, h3⟩
          simp only [List.length_cons] at h1 ⊢
          omega

theorem refsFrom_append (n : GoString) (l1 l2 : List Instance) :
    ∀ s, refsFrom s n (l1 ++ l2) = refsFrom s n l1 ++ refsFrom (s + l1.length) n l2 := by
  induction l1 with
  | nil => intro s; simp [refsFrom]
  | cons inst rest ih =>
    intro s
    have := ih (s + 1)
    have hlen : s + 1 + rest.length = s + (rest.length + 1) := by omega
    rw [hlen] at this
    show refsFrom s n (inst :: (rest ++ l2)) = _
    simp only [refsFrom, List.length_cons]
    split
    · rw [this]
      rfl
    · exact this

theorem headersOf_map_pairOf (n : GoString) (log : List Instance) :
    headersOf n (log.map pairOf) = (instancesOf n log).map (fun inst => inst.header) := by
  induction log with
  | nil => rfl
  | cons inst rest ih =>
    have hc : headersOf n (pairOf inst :: rest.map pairOf)
        = headersOf n [pairOf inst] ++ headersOf n (rest.map pairOf) :=
      headersOf_append n [pairOf inst] (rest.map pairOf)
    rw [List.map_cons, hc, ih]
    unfold pairOf
    rw [headersOf_single]
    by_cases e : inst.name = n <;> simp [instancesOf, e]

theorem holdsKeys_nil : holdsKeys [] [] := by
  intro k
  rfl

theorem holdsKeys_addKey (t : KeyTable) (keys : List Property) (p : Property)
    (h : holdsKeys t keys) : holdsKeys (addKey t p) (keys ++ [p]) := by
  intro k
  rw [addKey_get, named_append]
  by_cases e : p.name = k
  · subst e
    rw [named_cons_eq p.name p [] rfl]
    simp only [if_true]
    have : named p.name ([] : List Property) = [] := rfl
    rw [this, entryOf_append_single, GoMap.getSlice, h p.name, entryOf_getD]
  · rw [named_cons_ne k p [] e]
    simp only [e, if_false]
    have : named k ([] : List Property) = [] := rfl
    rw [this, List.append_nil]
    exact h k

theorem Built_Reach (c : ConfigFile) (log : List Instance) (h : Built c log) :
    Reach c (log.map pairOf) := by
  induction h with
  | new => exact Reach.new
  | setNames c log l _ ih => exact Reach.setNames c _ l ih
  | load c log line c1 _ hl ih =>
    have hr := Reach.load c _ line c1 ih hl
    have he : (logAfter c log line).map pairOf = log.map pairOf ++ opensOf c line := by
      unfold logAfter opensOf
      cases parseLine line with
      | none => simp
      | some p =>
        simp only []
        split
        · simp [pairOf]
        · split
          · simp [pairOf]
          · simp [addKeyToLast_map_pairOf]
    rw [he]
    exact hr

theorem Built_WF (c : ConfigFile) (log : List Instance) (h : Built c log) : c.WF :=
  Reach_WF c _ (Built_Reach c log h)

theorem refsFrom_single (k : Nat) (n : GoString) (inst : Instance) :
    refsFrom k n [inst] = if inst.name = n then [k] else [] := by
  simp only [refsFrom]

theorem refsEntry_getD (refs : List Nat) :
    (if refs = [] then (none : Option (List Nat)) else some refs).getD [] = refs := by
  split
  · next h => simp [h]
  · rfl

/-- Opening an instance: the store gets a new last table and a new last
reference under the section name. -/
theorem tableInv_open (c c1 : ConfigFile) (log : List Instance) (s : GoString)
    (hdr : Property) (t : KeyTable) (ks : List Property) (h : tableInv c log)
    (hheap : c1.heap = c.heap ++ [t]) (ht : holdsKeys t ks)
    (hcur : c1.CurrentKeys = some c.heap.length)
    (hdata : ∀ n, GoMap.get c1.data n
      = if s = n then some (GoMap.getSlice c.data s ++ [c.heap.length])
        else GoMap.get c.data n) :
    tableInv c1 (log ++ [{ name := s, header := hdr, keys := ks }]) := by
  obtain ⟨ha, _, hc, hd⟩ := h
  refine ⟨?_, ?_, ?_, ?_⟩
  · rw [hheap]
    simp [ha]
  · rw [hcur, ha]
    simp
  · intro i inst hi
    unfold ConfigFile.deref
    rw [hheap]
    by_cases hlt : i < log.length
    · rw [List.getElem?_append_left hlt] at hi
      rw [getD_append_lt _ _ _ (by omega)]
      exact hc i inst hi
    · by_cases heq : i = log.length
      · subst heq
        rw [List.getElem?_concat_length, Option.some.injEq] at hi
        subst hi
        rw [← ha, getD_append_length]
        exact ht
      · rw [List.getElem?_eq_none (by simp; omega)] at hi
        cases hi
  · intro n
    rw [hdata, refsFrom_append, refsFrom_single, Nat.zero_add, ha]
    by_cases e : s = n
    · subst e
      simp only [if_true]
      rw [GoMap.getSlice, hd s, refsEntry_getD]
      simp
    · simp only [e, if_false, List.append_nil]
      exact hd n

/-- A key record goes to the table of the most recently opened instance. -/
theorem tableInv_key (c : ConfigFile) (log : List Instance) (p : Property) (r : Nat)
    (h : tableInv c log) (hcur : c.CurrentKeys = some r) :
    tableInv ({ c with heap := c.heap.set r (addKey (c.deref r) p) } : ConfigFile)
      (addKeyToLast log p) := by
  obtain ⟨ha, hb, hc, hd⟩ := h
  have hlen : log.length ≠ 0 ∧ r = log.length - 1 := by
    rw [hcur] at hb
    by_cases h0 : log.length = 0
    · simp [h0] at hb
    · simp only [h0, if_false, Option.some.injEq] at hb
      exact ⟨h0, hb⟩
  refine ⟨?_, ?_, ?_, ?_⟩
  · simp [ha, addKeyToLast_length]
  · simp only [addKeyToLast_length]
    exact hb
  · intro i inst1 hi
    rcases addKeyToLast_getElem? log p i inst1 hi with ⟨h1, h2⟩ | ⟨h1, inst, h2, h3⟩
    · have hne : ¬ r = i := by omega
      have : ({ c with heap := c.heap.set r (addKey (c.deref r) p) } : ConfigFile).deref i
          = c.deref i := by
        simp [ConfigFile.deref, List.getD_eq_getElem?_getD, List.getElem?_set, hne]
      rw [this]
      exact hc i inst1 h2
    · have hri : r = i := by omega
      subst hri
      rw [deref_set_self c r _ (by omega), h3]
      exact holdsKeys_addKey _ _ p (hc r inst h2)
  · intro n
    rw [refsFrom_addKeyToLast]
    exact hd n

theorem Built_tableInv (c : ConfigFile) (log : List Instance) (h : Built c log) :
    tableInv c log := by
  induction h with
  | new =>
    refine ⟨rfl, rfl, ?_, ?_⟩
    · intro i inst hi
      simp at hi
    · intro n
      rfl
  | setNames c log l _ ih => exact ih
  | load c log line c1 hb hl ih =>
    have hwf := Built_WF c log hb
    rw [LoadString_eq] at hl
    simp only [Option.some.injEq] at hl
    subst hl
    unfold logAfter
    cases hp : parseLine line with
    | none => exact ih
    | some p =>
      simp only []
      by_cases hrec : contains c.sectionList p.name = true
      · rw [place_of_header c p hrec]
        simp only [hrec, if_true]
        exact tableInv_open c _ log p.name p [] [] ih (asv_heap c _ p) holdsKeys_nil
          (asv_CurrentKeys c _ p) (fun n => asv_data_get_of_WF c hwf p.name n p)
      · have hrec2 : contains c.sectionList p.name = false := by simpa using hrec
        rw [place_of_key c p hrec2]
        simp only [hrec2, Bool.false_eq_true, if_false]
        cases hc : c.CurrentKeys with
        | none =>
          rw [SetKey_of_none c p hc]
          simp only [if_true]
          refine tableInv_open c _ log DEFAULT_SECTION (newProperty DEFAULT_SECTION)
            (addKey [] p) [p] ih rfl ?_ ?_ ?_
          · exact holdsKeys_addKey [] [] p holdsKeys_nil
          · exact asv_CurrentKeys (c.SetSectionName [DEFAULT_SECTION]) DEFAULT_SECTION
              (newProperty DEFAULT_SECTION)
          · intro n
            exact asv_data_get_of_WF (c.SetSectionName [DEFAULT_SECTION])
              (WF_SetSectionName c _ hwf) DEFAULT_SECTION n (newProperty DEFAULT_SECTION)
        | some r =>
          rw [SetKey_of_some c p r hc]
          simp only [reduceCtorEq, if_false]
          exact tableInv_key c log p r ih hc

theorem refsFrom_tables (c : ConfigFile) (n : GoString) :
    ∀ (log : List Instance) (s : Nat),
      (∀ i inst, log[i]? = some inst → holdsKeys (c.deref (s + i)) inst.keys) →
      List.Forall₂ (fun t inst => ∀ k, GoMap.get t k = entryOf (named k inst.keys))
        ((refsFrom s n log).map c.deref) (instancesOf n log) := by
  intro log
  induction log with
  | nil =>
    intro s _
    exact List.Forall₂.nil
  | cons inst rest ih =>
    intro s h
    have h0 : holdsKeys (c.deref s) inst.keys := by
      have := h 0 inst (by simp)
      simpa using this
    have hrest : ∀ i inst1, rest[i]? = some inst1 →
        holdsKeys (c.deref (s + 1 + i)) inst1.keys := by
      intro i inst1 hi
      have := h (i + 1) inst1 (by simpa using hi)
      have e : s + (i + 1) = s + 1 + i := by omega
      rw [e] at this
      exact this
    have ih2 := ih (s + 1) hrest
    by_cases e : inst.name = n
    · simp only [refsFrom, instancesOf, e, if_true, List.map_cons, List.filter_cons,
        decide_True]
      exact List.Forall₂.cons h0 ih2
    · simp only [refsFrom, instancesOf, e, if_false, List.filter_cons, decide_False]
      exact ih2

theorem refsFrom_eq_nil_iff (n : GoString) (log : List Instance) :
    ∀ s, refsFrom s n log = [] ↔ instancesOf n log = [] := by
  induction log with
  | nil => intro s; simp [refsFrom, instancesOf]
  | cons inst rest ih =>
    intro s
    have := ih (s + 1)
    by_cases e : inst.name = n
    · simp [refsFrom, instancesOf, e]
    · simpa [refsFrom, instancesOf, e] using this

/-! ## The queries on built stores: properties -/

/-- C12: in a store built from an empty one by `SetSectionName` and
`LoadString`, `GetSection n` and `GetALLKeys n` fail exactly when no instance
of section `n` has been opened.  Otherwise `GetSection n` returns the header
records of the instances named `n`, in the order they were opened, and
`GetALLKeys n` returns their key tables in the same order: one table for
each instance, holding exactly the key records routed to that instance, each
under its name and in order. -/
theorem queries_fail_iff_never_opened (c : ConfigFile) (log : List Instance)
    (h : Built c log) (n : GoString) :
    (c.GetSection n = .error .sectionNotFound ↔ instancesOf n log = []) ∧
    (c.GetALLKeys n = .error .keyNotFound ↔ instancesOf n log = []) ∧
    (instancesOf n log ≠ [] →
      c.GetSection n = .ok ((instancesOf n log).map (fun inst => inst.header)) ∧
      ∃ tabs, c.GetALLKeys n = .ok tabs ∧
        List.Forall₂ (fun t inst => ∀ k, GoMap.get t k = entryOf (named k inst.keys))
          tabs (instancesOf n log)) := by
  obtain ⟨h1, _⟩ := Reach_sectionInv c _ (Built_Reach c log h) n
  obtain ⟨_, _, hc, hd⟩ := Built_tableInv c log h
  rw [headersOf_map_pairOf] at h1
  have h2 := hd n
  have htabs := refsFrom_tables c n log 0 (fun i inst hi => by
    rw [Nat.zero_add]
    exact hc i inst hi)
  by_cases hn : instancesOf n log = []
  · have hr : refsFrom 0 n log = [] := (refsFrom_eq_nil_iff n log 0).mpr hn
    simp only [hr, if_true] at h2
    have h1b : GoMap.get c.sectionData n = none := by
      rw [h1, hn]
      rfl
    refine ⟨?_, ?_, fun hne => absurd hn hne⟩
    · simp [ConfigFile.GetSection, h1b, hn]
    · simp [ConfigFile.GetALLKeys, h2, hn]
  · have hr : refsFrom 0 n log ≠ [] := fun e => hn ((refsFrom_eq_nil_iff n log 0).mp e)
    simp only [hr, if_false] at h2
    have h1b : GoMap.get c.sectionData n
        = some ((instancesOf n log).map (fun inst => inst.header)) := by
      rw [h1]
      simp [entryOf, hn]
    refine ⟨?_, ?_, fun _ => ⟨?_, (refsFrom 0 n log).map c.deref, ?_, htabs⟩⟩
    · simp [ConfigFile.GetSection, h1b, hn]
    · simp [ConfigFile.GetALLKeys, h2, hn]
    · simp [ConfigFile.GetSection, h1b]
    · simp [ConfigFile.GetALLKeys, h2]

/-- C12, on the store that recognizes `listen` after the lines `listen a` and
`k 1`: `GetSection("nope")` fails, and `GetALLKeys("listen")` returns one
table, which holds the record of `k 1`. -/
theorem queries_fail_iff_never_opened_witness :
    (((NewConfigFile.SetSectionName ["listen".toList]).AddSectionValue "listen".toList
        { name := "listen".toList, avals := ["a".toList], kwvals := [],
          keycomment := [] }).SetKey
        { name := "k".toList, avals := ["1".toList], kwvals := [],
          keycomment := [] }).GetSection "nope".toList
      = .error .sectionNotFound ∧
    ∃ tabs,
      (((NewConfigFile.SetSectionName ["listen".toList]).AddSectionValue "listen".toList
        { name := "listen".toList, avals := ["a".toList], kwvals := [],
          keycomment := [] }).SetKey
        { name := "k".toList, avals := ["1".toList], kwvals := [],
          keycomment := [] }).GetALLKeys "listen".toList = .ok tabs ∧
      List.Forall₂
        (fun (t : KeyTable) (inst : Instance) =>
          ∀ k, GoMap.get t k = entryOf (named k inst.keys)) tabs
        [({ name := "listen".toList,
            header := { name := "listen".toList, avals := ["a".toList], kwvals := [],
                        keycomment := [] },
            keys := [{ name := "k".toList, avals := ["1".toList], kwvals := [],
                       keycomment := [] }] } : Instance)] := by
  have hb : Built
      (((NewConfigFile.SetSectionName ["listen".toList]).AddSectionValue "listen".toList
        { name := "listen".toList, avals := ["a".toList], kwvals := [],
          keycomment := [] }).SetKey
        { name := "k".toList, avals := ["1".toList], kwvals := [], keycomment := [] })
      (logAfter
        ((NewConfigFile.SetSectionName ["listen".toList]).AddSectionValue "listen".toList
          { name := "listen".toList, avals := ["a".toList], kwvals := [],
            keycomment := [] })
        (logAfter (NewConfigFile.SetSectionName ["listen".toList]) [] "listen a".toList)
        "k 1".toList) :=
    Built.load _ _ "k 1".toList _
      (Built.load _ [] "listen a".toList _ (Built.setNames _ [] _ Built.new) (by rfl))
      (by rfl)
  exact ⟨(queries_fail_iff_never_opened _ _ hb "nope".toList).1.mpr (by rfl),
    ((queries_fail_iff_never_opened _ _ hb "listen".toList).2.2 (by
      intro e
      have : (instancesOf "listen".toList (logAfter
        ((NewConfigFile.SetSectionName ["listen".toList]).AddSectionValue "listen".toList
          { name := "listen".toList, avals := ["a".toList], kwvals := [],
            keycomment := [] })
        (logAfter (NewConfigFile.SetSectionName ["listen".toList]) [] "listen a".toList)
        "k 1".toList)).length = 1 := by rfl
      rw [e] at this
      cases this)).2⟩

/-! ## Totality of `Load` -/

theorem kwLoopTraced_eq (values : List GoString) :
    ∀ (i : Nat) (m : GoMap GoString) (tr : List Nat),
      kwLoopTraced values i m tr
        = (kwLoop values i m).map (fun m1 => (m1, tr ++ kwLoopTrace i))
  | 0, m, tr => by simp [kwLoopTraced, kwLoop, kwLoopTrace]
  | 1, m, tr => by simp [kwLoopTraced, kwLoop, kwLoopTrace]
  | i + 2, m, tr => by
    rw [kwLoopTraced, kwLoop, kwLoopTrace]
    cases kwBody values (i + 2) m with
    | none => rfl
    | some m1 =>
      simp only [Option.some_bind]
      rw [kwLoopTraced_eq values i m1 (tr ++ [i + 2])]
      simp

/-- What `LoadTraced` does, without the panic cases: the record is the one of
`Load`, the trace is the one of the loop started at `len(values) - 1`. -/
theorem LoadTraced_eq (p : Property) (str : GoString) :
    p.LoadTraced str = some
      (match Fields (contentOf str) with
       | [] => (false, { p with keycomment := commentOf p str }, [])
       | f :: fs =>
         (true, { name := f, avals := p.avals ++ fs,
                  kwvals := List.foldl (pairStep fs) p.kwvals (pairIndices fs.length),
                  keycomment := commentOf p str },
          kwLoopTrace (fs.length - 1))) := by
  unfold Property.LoadTraced contentOf commentOf
  cases hm : FindStringSubmatch str with
  | none =>
    simp only []
    cases hf : Fields str with
    | nil => simp
    | cons f fs =>
      simp [Property.AppendList, kwLoopTraced_eq, kwLoop_values]
  | some r =>
    obtain ⟨ct, cm⟩ := r
    simp only []
    cases hf : Fields ct with
    | nil => simp
    | cons f fs =>
      simp [Property.AppendList, kwLoopTraced_eq, kwLoop_values]

/-- C20: `Load` is total on a fresh record: for every string it returns, with
no index panic, the result that the traced run returns.  The body of the loop
runs exactly `floor(len(values)/2)` times, each time with `1 ≤ i < len(values)`,
so `values[i-1]` and `values[i]` exist, and every key and every value of the
keyword map is one of the values. -/
theorem Load_is_total (n str : GoString) :
    ∃ ok q tr,
      (newProperty n).LoadTraced str = some (ok, q, tr) ∧
      (newProperty n).Load str = some (ok, q) ∧
      tr.length = q.avals.length / 2 ∧
      (∀ i ∈ tr, 1 ≤ i ∧ i < q.avals.length ∧
        (q.avals[i - 1]?).isSome = true ∧ (q.avals[i]?).isSome = true) ∧
      (∀ k v, GoMap.get q.kwvals k = some v → k ∈ q.avals ∧ v ∈ q.avals) := by
  rw [LoadTraced_eq, Load_eq]
  cases hf : Fields (contentOf str) with
  | nil =>
    refine ⟨false, _, [], rfl, rfl, ?_, ?_, ?_⟩
    · simp [newProperty]
    · intro i hi
      cases hi
    · intro k v hk
      simp [newProperty, GoMap.get] at hk
  | cons f fs =>
    refine ⟨true, _, kwLoopTrace (fs.length - 1), rfl, rfl, ?_, ?_, ?_⟩
    · rw [kwLoopTrace_length]
      simp only [newProperty, List.nil_append]
      cases fs with
      | nil => rfl
      | cons a rest => simp
    · intro i hi
      have hb := kwLoopTrace_bounds _ i hi
      simp only [newProperty, List.nil_append]
      have hlt : i < fs.length := by omega
      have h1 : i - 1 < fs.length := by omega
      refine ⟨hb.1, hlt, ?_, ?_⟩
      · rw [List.getElem?_eq_getElem h1]
        rfl
      · rw [List.getElem?_eq_getElem hlt]
        rfl
    · intro k v hk
      simp only [newProperty, List.nil_append] at hk ⊢
      obtain ⟨i, _, hki, hvi, _⟩ := pairFromRight_get fs k v hk
      exact ⟨List.getElem?_mem hki, List.getElem?_mem hvi⟩

/-- C20, at the line `k a b`: the loop body runs once, with `i = 1`. -/
theorem Load_is_total_witness :
    (newProperty []).LoadTraced "k a b".toList
      = some (true, { name := "k".toList, avals := ["a".toList, "b".toList],
                      kwvals := [("a".toList, "b".toList)], keycomment := [] }, [1]) ∧
    ∃ ok q tr,
      (newProperty []).LoadTraced "k a b".toList = some (ok, q, tr) ∧
      (newProperty []).Load "k a b".toList = some (ok, q) ∧
      tr.length = q.avals.length / 2 := by
  obtain ⟨ok, q, tr, h1, h2, h3, _⟩ := Load_is_total [] "k a b".toList
  exact ⟨by rfl, ok, q, tr, h1, h2, h3⟩

end Uconf
